import Mathlib

/-!
Shallow embedding of the tensor core in `src/tensor.c` (column-major dense
complex tensors) and proofs about its operations.

Machine scalars (`double complex`) are modelled by an arbitrary commutative
ring `α`; concrete instances in witnesses use `ℤ` or the Gaussian integers.
Buffers are `List α`; an in-place write is `List.set`; a C pointer that may
be NULL is an `Option`.  Operations whose C code can abort on a failed
`assert`, or can perform an out-of-range / null-pointer access, return
`Option` and yield `none` in exactly those situations.
-/

set_option maxHeartbeats 1000000

/-- Tensor value (struct `tensor_t`, declared in `tensor.h`, not under `src/`).
Modelled from the spec: rank = `dim.length`, `dim` the dimension vector,
`data` the contiguous column-major buffer (axis 0 varies fastest). -/
structure Tensor (α : Type) where
  dim : List ℕ
  data : List α
deriving DecidableEq

/-- Modelled from the spec: `NumTensorElements` (declared in `tensor.h`, not
under `src/`) returns `N = Π dₖ`, with `N = 1` for rank 0. -/
def NumTensorElements {α : Type} (t : Tensor α) : ℕ :=
  t.dim.prod

/-- Modelled from the spec: `IntProduct(list, n)` (from `util.h`, not under
`src/`) is the product of the first `n` entries of `list`. -/
def IntProduct (l : List ℕ) (n : ℕ) : ℕ :=
  (l.take n).prod

/-- `IndexToOffset` (tensor.c:16): column-major offset of a multi-index,
`offset = Σ iₖ · Πⱼ<ₖ dⱼ`. -/
def IndexToOffset : List ℕ → List ℕ → ℕ
  | d :: ds, j :: js => j + d * IndexToOffset ds js
  | _, _ => 0

/-- `NextIndex` (tensor.c:34): lexicographically next multi-index
(least-significant axis first, wrapping to all zeros at the end). -/
def NextIndex : List ℕ → List ℕ → List ℕ
  | d :: ds, j :: js => if j + 1 < d then (j + 1) :: js else 0 :: NextIndex ds js
  | _, js => js

/-- Column-major digits of an offset: the inverse of `IndexToOffset` on
in-range offsets (proof device, not a C function). -/
def offsetToIndex : List ℕ → ℕ → List ℕ
  | [], _ => []
  | d :: ds, o => o % d :: offsetToIndex ds (o / d)

/-- Boolean test that `i` is a valid multi-index for dimension vector `d`
(same length, every coordinate below the extent). -/
def validIndexB : List ℕ → List ℕ → Bool
  | [], [] => true
  | d :: ds, j :: js => decide (j < d) && validIndexB ds js
  | _, _ => false

/-- `i` is a valid multi-index for dimension vector `d`. -/
def ValidIndex (d i : List ℕ) : Prop :=
  validIndexB d i = true

/-- `perm` is a permutation of `{0, …, n−1}` presented as a list of images. -/
def IsPermOf (perm : List ℕ) (n : ℕ) : Prop :=
  perm.length = n ∧ (∀ p ∈ perm, p < n) ∧ perm.Nodup

instance instDecidableIsPermOf (perm : List ℕ) (n : ℕ) : Decidable (IsPermOf perm n) :=
  inferInstanceAs (Decidable (perm.length = n ∧ (∀ p ∈ perm, p < n) ∧ perm.Nodup))

/-- The scatter loop `acc[perm[i]] = src[i]` (used by `TransposeTensor` for
`rdim[perm[i]] = t->dim[i]` and `index_r[perm[i]] = index_t[i]`). -/
def PermScatter (perm src acc : List ℕ) : List ℕ :=
  match perm, src with
  | p :: ps, x :: xs => PermScatter ps xs (acc.set p x)
  | _, _ => acc

/-- Modelled from the spec: kernel `cblas_zdotu_sub`, the unconjugated dot
product `Σ xᵢ yᵢ`.  The count is a 32-bit signed `int` at the kernel
boundary (spec section 6); a non-positive count sums nothing. -/
def zdotu {α : Type} [CommRing α] (n : ℤ) (x y : List α) : α :=
  ∑ k in Finset.range n.toNat, x.getD k 0 * y.getD k 0

/-- Modelled from the spec: kernel `cblas_zgemv` with `CblasTrans`,
`y = Aᵀ·x` for a column-major `m × n` matrix `A` (lda = m).  The counts are
32-bit signed `int`s at the kernel boundary (spec section 6): entries
`y[j]` for `j < n` are overwritten, the rest of the output buffer is left
unchanged, and non-positive counts compute nothing. -/
def zgemvT {α : Type} [CommRing α] (m n : ℤ) (A x yBuf : List α) : List α :=
  (List.range yBuf.length).map fun j =>
    if j < n.toNat then
      ∑ k in Finset.range m.toNat, A.getD (k + m.toNat * j) 0 * x.getD k 0
    else yBuf.getD j 0

/-- Modelled from the spec: kernel `cblas_zgemv` with `CblasNoTrans`,
`y = A·x` for a column-major `m × n` matrix `A` (lda = m).  The counts are
32-bit signed `int`s at the kernel boundary (spec section 6): entries
`y[i]` for `i < m` are overwritten, the rest of the output buffer is left
unchanged, and non-positive counts compute nothing. -/
def zgemvN {α : Type} [CommRing α] (m n : ℤ) (A x yBuf : List α) : List α :=
  (List.range yBuf.length).map fun i =>
    if i < m.toNat then
      ∑ k in Finset.range n.toNat, A.getD (i + m.toNat * k) 0 * x.getD k 0
    else yBuf.getD i 0

/-- Modelled from the spec: kernel `cblas_zgemm` with `CblasNoTrans` twice,
`C = A·B` for column-major `A : m × k`, `B : k × n` (lda = m, ldb = k,
ldc = m).  The counts are 32-bit signed `int`s at the kernel boundary
(spec section 6): with ldc = m the written region is the first `m·n`
entries of the output buffer, the rest is left unchanged, and non-positive
counts compute nothing. -/
def zgemm {α : Type} [CommRing α] (m n k : ℤ) (A B cBuf : List α) : List α :=
  (List.range cBuf.length).map fun o =>
    if o < m.toNat * n.toNat then
      ∑ l in Finset.range k.toNat,
        A.getD (o % m.toNat + m.toNat * l) 0 * B.getD (l + k.toNat * (o / m.toNat)) 0
    else cBuf.getD o 0

/-- Modelled from the spec: kernel `cblas_zgeru`, the rank-1 update
`A ← A + x·yᵀ` (α = 1) on a column-major `m × n` matrix `A` (lda = m).  The
counts are 32-bit signed `int`s at the kernel boundary (spec section 6):
with lda = m the updated region is the first `m·n` entries, and
non-positive counts compute nothing. -/
def zgeru {α : Type} [CommRing α] (m n : ℤ) (x y A : List α) : List α :=
  (List.range A.length).map fun o =>
    A.getD o 0 +
      (if o < m.toNat * n.toNat then x.getD (o % m.toNat) 0 * y.getD (o / m.toNat) 0 else 0)

/-- The C conversion `(int)` applied to a `size_t` value: two's-complement
truncation to 32 bits. -/
def toInt32 (n : ℕ) : ℤ :=
  (((n + 2 ^ 31) % 2 ^ 32 : ℕ) : ℤ) - 2 ^ 31

/-- Modelled from the spec: kernel `cblas_zaxpy`, `y ← α·x + y` over the
first `n` entries; a non-positive count does nothing. -/
def zaxpy {α : Type} [CommRing α] (n : ℤ) (alpha : α) (x y : List α) : List α :=
  (List.range y.length).map fun (i : ℕ) =>
    if (i : ℤ) < n then alpha * x.getD i 0 + y.getD i 0 else y.getD i 0

/-- The count argument the code passes to `cblas_zaxpy` at tensor.c:404:
`(int)nelem`, with no size guard in front of the cast. -/
def ScalarMultiplyAddKernelN {α : Type} (s : Tensor α) : ℤ :=
  toInt32 (NumTensorElements s)

/-- `ScalarMultiplyAddTensor` (tensor.c:397): `t ← α·s + t`.  The shape
`assert`s abort (`none`) on mismatch; the element count reaches the kernel
through an unguarded `(int)` cast. -/
def ScalarMultiplyAddTensor {α : Type} [CommRing α] (alpha : α) (s t : Tensor α) :
    Option (Tensor α) :=
  if s.dim.length = t.dim.length ∧ NumTensorElements s = NumTensorElements t then
    some ⟨t.dim, zaxpy (ScalarMultiplyAddKernelN s) alpha s.data t.data⟩
  else none

/-- Inner copy loop of `TransposeTensor` (tensor.c:277-281):
`r->data[base + j*stride] = t->data[ot + j]` for `j = 0, …, cnt−1`. -/
def CopyRow {α : Type} [CommRing α] (src : List α) (ot : ℕ) (dst : List α)
    (base stride : ℕ) : ℕ → List α
  | 0 => dst
  | j + 1 => (CopyRow src ot dst base stride j).set (base + j * stride) (src.getD (ot + j) 0)

/-- Outer loop of `TransposeTensor` (tensor.c:263-285), iterating `cnt` times:
map `index_t` through `perm`, copy a row of `t->dim[0]` elements, then
advance the tail of `index_t` with `NextIndex`. -/
def TransposeLoop {α : Type} [CommRing α] (perm tdim rdim : List ℕ) (stride : ℕ)
    (tdata : List α) : ℕ → ℕ → List ℕ → List α → List α
  | 0, _, _, rdata => rdata
  | cnt + 1, ot, idx, rdata =>
    let idxr := PermScatter perm idx (List.replicate tdim.length 0)
    let base := IndexToOffset rdim idxr
    let rdata1 := CopyRow tdata ot rdata base stride (tdim.headD 0)
    TransposeLoop perm tdim rdim stride tdata cnt (ot + tdim.headD 0)
      (match idx with
       | x :: rest => x :: NextIndex (tdim.drop 1) rest
       | [] => []) rdata1

/-- `TransposeTensor` (tensor.c:237): generalized transpose; level `k` of `t`
becomes level `perm[k]` of the result.  The reads of `perm[0]` (tensor.c:255)
and `t->dim[0]` (tensor.c:263,273) are modelled as checked accesses: for a
rank-0 tensor both arrays are empty/NULL and the function returns `none`
(the C code performs an out-of-range read and a NULL dereference there). -/
def TransposeTensor {α : Type} [CommRing α] (perm : List ℕ) (t : Tensor α) :
    Option (Tensor α) :=
  let rdim := PermScatter perm t.dim (List.replicate t.dim.length 0)
  match perm.get? 0, t.dim.get? 0 with
  | some p0, some d0 =>
    let stride := IntProduct rdim p0
    let nelem := NumTensorElements t
    some ⟨rdim, TransposeLoop perm t.dim rdim stride t.data (nelem / d0) 0
        (List.replicate t.dim.length 0) (List.replicate rdim.prod 0)⟩
  | _, _ => none

/-- `MultiplyTensor` (tensor.c:414): contract the last `m` axes of `s` with
the first `m` axes of `t`.  All `assert`s are modelled as guards returning
`none`; the four BLAS dispatch branches follow tensor.c:465-497, and every
count is lowered through the unguarded `(int)` cast of the source
(tensor.c:472/479/489/496), modelled by `toInt32`.  The result buffer is
the zero-filled allocation of `AllocateTensor`, into which the kernel
writes. -/
def MultiplyTensor {α : Type} [CommRing α] (s t : Tensor α) (m : ℕ) :
    Option (Tensor α) :=
  let p := s.dim.length
  let q := t.dim.length
  if 1 ≤ m ∧ m ≤ p ∧ m ≤ q ∧ (∀ i < m, s.dim.getD (p - m + i) 0 = t.dim.getD i 0) then
    let rdim := s.dim.take (p - m) ++ t.dim.drop m
    if rdim = [] ∨ 0 < rdim.prod then
      let nelemS := NumTensorElements s
      let nelemT := NumTensorElements t
      let lds := nelemS / IntProduct (s.dim.drop (p - m)) m
      let ldt := IntProduct t.dim m
      let tdt := nelemT / ldt
      if 0 < lds ∧ 0 < ldt then
        if lds = 1 then
          if tdt = 1 then
            if nelemS = nelemT ∧ rdim.prod = 1 then
              some ⟨rdim, (List.replicate rdim.prod 0).set 0
                (zdotu (toInt32 nelemS) s.data t.data)⟩
            else none
          else some ⟨rdim, zgemvT (toInt32 ldt) (toInt32 tdt) t.data s.data
            (List.replicate rdim.prod 0)⟩
        else
          if tdt = 1 then some ⟨rdim, zgemvN (toInt32 lds) (toInt32 ldt) s.data t.data
            (List.replicate rdim.prod 0)⟩
          else some ⟨rdim, zgemm (toInt32 lds) (toInt32 tdt) (toInt32 ldt) s.data t.data
            (List.replicate rdim.prod 0)⟩
      else none
    else none
  else none

/-- The axis-interleaving permutation built by `TensorKroneckerProduct`
(tensor.c:539-547): `perm[i] = 2i` for `i < n`, `perm[n+i] = 2i+1`. -/
def KronPerm (n : ℕ) : List ℕ :=
  (List.range n).map (fun k => 2 * k) ++ (List.range n).map (fun k => 2 * k + 1)

/-- `TensorKroneckerProduct` (tensor.c:508): outer product via `zgeru` into a
zero-initialized rank-2n tensor, transpose by the interleaving permutation,
then reshape to rank n with `rdim[k] = s.dim[k] * t.dim[k]`
(`ReshapeTensor`'s element-count `assert` is the final guard).  The element
counts reach `cblas_zgeru` through the unguarded `(int)` casts of
tensor.c:536, modelled by `toInt32`. -/
def TensorKroneckerProduct {α : Type} [CommRing α] (s t : Tensor α) :
    Option (Tensor α) :=
  if s.dim.length = t.dim.length then
    let udim := s.dim ++ t.dim
    let m := NumTensorElements s
    let n := NumTensorElements t
    let udata := zgeru (toInt32 m) (toInt32 n) s.data t.data (List.replicate udim.prod 0)
    (TransposeTensor (KronPerm s.dim.length) ⟨udim, udata⟩).bind fun r =>
      let rdim := List.zipWith (· * ·) s.dim t.dim
      if rdim.prod = NumTensorElements r then some ⟨rdim, r.data⟩ else none
  else none

/-- The write loop of `IdentityTensor` (tensor.c:185-189):
`data[j*stride] = 1` for `j = 0, …, cnt−1`. -/
def writeDiagOnes {α : Type} [CommRing α] (stride : ℕ) : ℕ → List α → List α
  | 0, d => d
  | j + 1, d => (writeDiagOnes stride j d).set (j * stride) 1

/-- `IdentityTensor` (tensor.c:167): requires rank ≥ 1 and all extents equal
(the `assert`s); zero-fills, then writes 1 at offsets `j·stride` with
`stride = Σₖ nᵏ`. -/
def IdentityTensor {α : Type} [CommRing α] (t : Tensor α) : Option (Tensor α) :=
  if 1 ≤ t.dim.length ∧ ∀ d ∈ t.dim, d = t.dim.headD 0 then
    let n := t.dim.headD 0
    let r := t.dim.length
    let stride := ∑ k in Finset.range r, n ^ k
    some ⟨t.dim, writeDiagOnes stride n (List.replicate (n * n ^ (r - 1)) 0)⟩
  else none

/-- `TensorTrace` (tensor.c:570): requires rank ≥ 1 and all extents equal;
returns `Σⱼ data[j·stride]` with the same diagonal stride as `IdentityTensor`. -/
def TensorTrace {α : Type} [CommRing α] (t : Tensor α) : Option α :=
  if 1 ≤ t.dim.length ∧ ∀ d ∈ t.dim, d = t.dim.headD 0 then
    let n := t.dim.headD 0
    some (∑ j in Finset.range n, t.data.getD (j * ∑ k in Finset.range t.dim.length, n ^ k) 0)
  else none

/-- Raw tensor state for the lifecycle operations: the `ndim` field plus the
two buffer pointers, which may be NULL (`none`). -/
structure CTensor (α : Type) where
  ndim : ℕ
  dim : Option (List ℕ)
  data : Option (List α)
deriving DecidableEq

/-- `MoveTensorData` (tensor.c:121): destructive move.  Returns the pair
(new source state, new destination state); the previous destination state is
fully overwritten.  The source's `ndim` field is not written by the C code. -/
def MoveTensorData {α : Type} (src : CTensor α) (dst : CTensor α) :
    CTensor α × CTensor α :=
  let _ := dst
  ({ src with dim := none, data := none },
   { ndim := src.ndim, dim := src.dim, data := src.data })

/-- `DeleteTensor` (tensor.c:100): frees `dim` only when `ndim > 0` (the
pointer value itself is left in place), sets `ndim = 0`, frees `data` and
nulls it. -/
def DeleteTensor {α : Type} (t : CTensor α) : CTensor α :=
  { ndim := 0, dim := t.dim, data := none }

/-- Number of live (non-NULL) buffers a `DeleteTensor` call on state `t`
passes to `algn_free`: the `dim` buffer when `ndim > 0`, and the `data`
buffer.  Freeing NULL is a no-op. -/
def DeleteTensorLiveFrees {α : Type} (t : CTensor α) : ℕ :=
  (if 0 < t.ndim ∧ t.dim.isSome then 1 else 0) + (if t.data.isSome then 1 else 0)

/-- The dimension vector of a transposed tensor: `rdim[perm[k]] = tdim[k]`
(proof device naming the scatter performed at tensor.c:245-249). -/
def TransShape (perm tdim : List ℕ) : List ℕ :=
  PermScatter perm tdim (List.replicate tdim.length 0)

/-- Offset in the transposed tensor of the image of multi-index `i`
(proof device: offset of `index_r` where `index_r[perm[k]] = i[k]`). -/
def PosR (perm tdim i : List ℕ) : ℕ :=
  IndexToOffset (TransShape perm tdim) (PermScatter perm i (List.replicate tdim.length 0))

/-- Pairwise interleaving of two equal-length lists (proof device: the axis
order produced by `TensorKroneckerProduct`'s transpose). -/
def Interleave : List ℕ → List ℕ → List ℕ
  | a :: as, b :: bs => a :: b :: Interleave as bs
  | _, _ => []

/-- The combined multi-index `iₖ + S.dim[k] · jₖ` of the reshaped Kronecker
product (proof device; the `S` index varies fastest within each axis). -/
def CombineIdx : List ℕ → List ℕ → List ℕ → List ℕ
  | i :: is, d :: ds, j :: js => (i + d * j) :: CombineIdx is ds js
  | _, _, _ => []

/-! ### List access helper lemmas -/

theorem getD_set_eq {β : Type} (l : List β) (i : ℕ) (a d : β) (h : i < l.length) :
    (l.set i a).getD i d = a := by
  rw [List.getD_eq_getElem?_getD, List.getElem?_set_self h]
  rfl

theorem getD_set_ne {β : Type} (l : List β) {i j : ℕ} (a d : β) (h : i ≠ j) :
    (l.set i a).getD j d = l.getD j d := by
  rw [List.getD_eq_getElem?_getD, List.getElem?_set_ne h, ← List.getD_eq_getElem?_getD]

theorem getD_replicate {β : Type} {n i : ℕ} (x d : β) (h : i < n) :
    (List.replicate n x).getD i d = x := by
  rw [List.getD_eq_getElem _ _ (by simpa using h)]
  exact List.getElem_replicate ..

theorem getD_replicate_self {β : Type} (n k : ℕ) (x : β) :
    (List.replicate n x).getD k x = x := by
  rcases Nat.lt_or_ge k n with h | h
  · exact getD_replicate x x h
  · rw [List.getD_eq_getElem?_getD, List.getElem?_eq_none (by simpa using h)]
    rfl

theorem ext_getD {β : Type} (l1 l2 : List β) (d : β) (hl : l1.length = l2.length)
    (h : ∀ i < l1.length, l1.getD i d = l2.getD i d) : l1 = l2 := by
  refine List.ext_getElem hl ?_
  intro i h1 h2
  have hh := h i h1
  rwa [List.getD_eq_getElem _ _ h1, List.getD_eq_getElem _ _ h2] at hh

theorem getD_map_range {β : Type} (f : ℕ → β) {N o : ℕ} (d : β) (h : o < N) :
    ((List.range N).map f).getD o d = f o := by
  rw [List.getD_eq_getElem _ _ (by simpa using h), List.getElem_map]
  congr 1
  exact List.getElem_range ..

/-! ### Valid multi-indices -/

theorem validIndex_nil : ValidIndex [] [] := rfl

theorem validIndex_cons {d j : ℕ} {ds js : List ℕ} :
    ValidIndex (d :: ds) (j :: js) ↔ j < d ∧ ValidIndex ds js := by
  simp [ValidIndex, validIndexB]

theorem validIndex_length : ∀ {d i : List ℕ}, ValidIndex d i → i.length = d.length := by
  intro d
  induction d with
  | nil =>
    intro i h
    cases i with
    | nil => rfl
    | cons x xs => simp [ValidIndex, validIndexB] at h
  | cons d ds ih =>
    intro i h
    cases i with
    | nil => simp [ValidIndex, validIndexB] at h
    | cons j js =>
      rcases validIndex_cons.mp h with ⟨_, h2⟩
      simpa using ih h2

theorem validIndex_getD : ∀ {d i : List ℕ}, ValidIndex d i →
    ∀ {k : ℕ}, k < d.length → i.getD k 0 < d.getD k 0 := by
  intro d
  induction d with
  | nil =>
    intro i _ k hk
    simp at hk
  | cons d ds ih =>
    intro i h k hk
    cases i with
    | nil => simp [ValidIndex, validIndexB] at h
    | cons j js =>
      rcases validIndex_cons.mp h with ⟨h1, h2⟩
      cases k with
      | zero => simpa using h1
      | succ k => simpa using ih h2 (by simpa using hk)

theorem validIndex_of_getD : ∀ {d i : List ℕ}, i.length = d.length →
    (∀ k < d.length, i.getD k 0 < d.getD k 0) → ValidIndex d i := by
  intro d
  induction d with
  | nil =>
    intro i hl _
    cases i with
    | nil => exact validIndex_nil
    | cons j js => simp at hl
  | cons d ds ih =>
    intro i hl h
    cases i with
    | nil => simp at hl
    | cons j js =>
      refine validIndex_cons.mpr ⟨by simpa using h 0 (by simp), ?_⟩
      refine ih (by simpa using hl) ?_
      intro k hk
      simpa using h (k + 1) (by simpa using hk)

/-! ### Index/offset arithmetic -/

theorem indexToOffset_lt : ∀ {d i : List ℕ}, ValidIndex d i →
    IndexToOffset d i < d.prod := by
  intro d
  induction d with
  | nil =>
    intro i h
    have := validIndex_length h
    cases i with
    | nil => simp [IndexToOffset]
    | cons j js => simp at this
  | cons d ds ih =>
    intro i h
    cases i with
    | nil => simp [ValidIndex, validIndexB] at h
    | cons j js =>
      rcases validIndex_cons.mp h with ⟨h1, h2⟩
      have hrec := ih h2
      simp only [IndexToOffset, List.prod_cons]
      have h3 : d * (IndexToOffset ds js + 1) ≤ d * ds.prod := Nat.mul_le_mul_left d hrec
      calc j + d * IndexToOffset ds js < d + d * IndexToOffset ds js := by omega
        _ = d * (IndexToOffset ds js + 1) := by ring
        _ ≤ d * ds.prod := h3

theorem offsetToIndex_indexToOffset : ∀ {d i : List ℕ}, ValidIndex d i →
    offsetToIndex d (IndexToOffset d i) = i := by
  intro d
  induction d with
  | nil =>
    intro i h
    have := validIndex_length h
    cases i with
    | nil => rfl
    | cons j js => simp at this
  | cons d ds ih =>
    intro i h
    cases i with
    | nil => simp [ValidIndex, validIndexB] at h
    | cons j js =>
      rcases validIndex_cons.mp h with ⟨h1, h2⟩
      have hd : 0 < d := Nat.lt_of_le_of_lt (Nat.zero_le j) h1
      simp only [IndexToOffset, offsetToIndex]
      have hmod : (j + d * IndexToOffset ds js) % d = j := by
        rw [Nat.add_mul_mod_self_left]
        exact Nat.mod_eq_of_lt h1
      have hdiv : (j + d * IndexToOffset ds js) / d = IndexToOffset ds js := by
        rw [Nat.add_mul_div_left _ _ hd, Nat.div_eq_of_lt h1, Nat.zero_add]
      rw [hmod, hdiv, ih h2]

theorem indexToOffset_inj {d i1 i2 : List ℕ} (h1 : ValidIndex d i1) (h2 : ValidIndex d i2)
    (he : IndexToOffset d i1 = IndexToOffset d i2) : i1 = i2 := by
  have e1 := offsetToIndex_indexToOffset h1
  have e2 := offsetToIndex_indexToOffset h2
  rw [← e1, ← e2, he]

theorem offsetToIndex_valid : ∀ (d : List ℕ) (o : ℕ), o < d.prod →
    ValidIndex d (offsetToIndex d o) := by
  intro d
  induction d with
  | nil =>
    intro o _
    exact validIndex_nil
  | cons d ds ih =>
    intro o ho
    simp only [List.prod_cons] at ho
    have hd : 0 < d := by
      rcases Nat.eq_zero_or_pos d with h | h
      · subst h; simp at ho
      · exact h
    have hp : 0 < ds.prod := by
      rcases Nat.eq_zero_or_pos ds.prod with h | h
      · rw [h, Nat.mul_zero] at ho; exact absurd ho (Nat.not_lt_zero o)
      · exact h
    refine validIndex_cons.mpr ⟨Nat.mod_lt o hd, ih _ ?_⟩
    exact Nat.div_lt_of_lt_mul ho

theorem indexToOffset_offsetToIndex : ∀ (d : List ℕ) (o : ℕ), o < d.prod →
    IndexToOffset d (offsetToIndex d o) = o := by
  intro d
  induction d with
  | nil =>
    intro o ho
    simp only [List.prod_nil, Nat.lt_one_iff] at ho
    subst ho
    rfl
  | cons d ds ih =>
    intro o ho
    simp only [List.prod_cons] at ho
    have hd : 0 < d := by
      rcases Nat.eq_zero_or_pos d with h | h
      · subst h; simp at ho
      · exact h
    simp only [offsetToIndex, IndexToOffset]
    rw [ih _ (Nat.div_lt_of_lt_mul ho)]
    exact Nat.mod_add_div o d

theorem offsetToIndex_zero : ∀ (d : List ℕ), offsetToIndex d 0 = List.replicate d.length 0 := by
  intro d
  induction d with
  | nil => rfl
  | cons x xs ih => simp [offsetToIndex, ih, List.replicate_succ]

theorem nextIndex_offsetToIndex : ∀ (d : List ℕ) (o : ℕ), o + 1 ≤ d.prod →
    NextIndex d (offsetToIndex d o) = offsetToIndex d (o + 1) := by
  intro d
  induction d with
  | nil =>
    intro o _
    rfl
  | cons d ds ih =>
    intro o ho
    simp only [List.prod_cons] at ho
    have hd : 0 < d := by
      rcases Nat.eq_zero_or_pos d with h | h
      · subst h; simp at ho
      · exact h
    have h0 : d * (o / d) + o % d = o := Nat.div_add_mod o d
    simp only [offsetToIndex, NextIndex]
    by_cases hc : o % d + 1 < d
    · rw [if_pos hc]
      have hmod : (o + 1) % d = o % d + 1 := by
        conv_lhs => rw [← Nat.mod_add_div o d]
        rw [Nat.add_right_comm, Nat.add_mul_mod_self_left]
        exact Nat.mod_eq_of_lt hc
      have hdiv : (o + 1) / d = o / d := by
        conv_lhs => rw [← Nat.mod_add_div o d, Nat.add_right_comm, Nat.add_mul_div_left _ _ hd]
        rw [Nat.div_eq_of_lt hc, Nat.zero_add]
      rw [hmod, hdiv]
    · have hmax : o % d + 1 = d := by
        have := Nat.mod_lt o hd
        omega
      rw [if_neg hc]
      have hexp : o + 1 = d * (o / d + 1) := by
        rw [Nat.mul_add, Nat.mul_one]
        linarith
      have hmod : (o + 1) % d = 0 := by
        rw [hexp]
        exact Nat.mul_mod_right d _
      have hdiv : (o + 1) / d = o / d + 1 := by
        rw [hexp]
        exact Nat.mul_div_cancel_left _ hd
      rw [hmod, hdiv]
      congr 1
      refine ih _ ?_
      rw [hexp] at ho
      exact Nat.le_of_mul_le_mul_left ho hd

theorem indexToOffset_append : ∀ (d1 i1 d2 i2 : List ℕ), i1.length = d1.length →
    IndexToOffset (d1 ++ d2) (i1 ++ i2) =
      IndexToOffset d1 i1 + d1.prod * IndexToOffset d2 i2 := by
  intro d1
  induction d1 with
  | nil =>
    intro i1 d2 i2 hl
    cases i1 with
    | nil => simp [IndexToOffset]
    | cons j js => simp at hl
  | cons d ds ih =>
    intro i1 d2 i2 hl
    cases i1 with
    | nil => simp at hl
    | cons j js =>
      rw [List.cons_append, List.cons_append]
      show j + d * IndexToOffset (ds ++ d2) (js ++ i2) =
        (j + d * IndexToOffset ds js) + (d :: ds).prod * IndexToOffset d2 i2
      rw [ih js d2 i2 (by simpa using hl), List.prod_cons]
      ring

/-! ### Scatter and permutation lemmas -/

theorem permScatter_length : ∀ (perm src acc : List ℕ),
    (PermScatter perm src acc).length = acc.length := by
  intro perm
  induction perm with
  | nil =>
    intro src acc
    simp [PermScatter]
  | cons p ps ih =>
    intro src acc
    cases src with
    | nil => simp [PermScatter]
    | cons x xs => simp [PermScatter, ih]

theorem permScatter_getD_not_mem : ∀ (perm src acc : List ℕ) (pos : ℕ), pos ∉ perm →
    (PermScatter perm src acc).getD pos 0 = acc.getD pos 0 := by
  intro perm
  induction perm with
  | nil =>
    intro src acc pos _
    simp [PermScatter]
  | cons p ps ih =>
    intro src acc pos hpos
    cases src with
    | nil => simp [PermScatter]
    | cons x xs =>
      have hne : p ≠ pos := fun h => hpos (h ▸ List.mem_cons_self p ps)
      have hnm : pos ∉ ps := fun h => hpos (List.mem_cons_of_mem p h)
      simp only [PermScatter]
      rw [ih xs (acc.set p x) pos hnm, getD_set_ne _ _ _ hne]

theorem permScatter_set_not_mem : ∀ (perm src acc : List ℕ) (p v : ℕ), p ∉ perm →
    PermScatter perm src (acc.set p v) = (PermScatter perm src acc).set p v := by
  intro perm
  induction perm with
  | nil =>
    intro src acc p v _
    simp [PermScatter]
  | cons q qs ih =>
    intro src acc p v hp
    cases src with
    | nil => simp [PermScatter]
    | cons x xs =>
      have hne : p ≠ q := fun h => hp (h ▸ List.mem_cons_self q qs)
      have hnm : p ∉ qs := fun h => hp (List.mem_cons_of_mem q h)
      simp only [PermScatter]
      rw [List.set_comm _ _ _ hne, ih xs (acc.set q x) p v hnm]

theorem permScatter_getD : ∀ (perm src acc : List ℕ) (k : ℕ), perm.Nodup →
    k < perm.length → k < src.length → perm.getD k 0 < acc.length →
    (PermScatter perm src acc).getD (perm.getD k 0) 0 = src.getD k 0 := by
  intro perm
  induction perm with
  | nil =>
    intro src acc k _ hk
    simp at hk
  | cons p ps ih =>
    intro src acc k hnd hk hks hb
    cases src with
    | nil => simp at hks
    | cons x xs =>
      rcases List.nodup_cons.mp hnd with ⟨hpm, hnd2⟩
      cases k with
      | zero =>
        simp only [List.getD_cons_zero] at hb ⊢
        simp only [PermScatter]
        rw [permScatter_getD_not_mem ps xs (acc.set p x) p hpm]
        exact getD_set_eq acc p x 0 hb
      | succ k =>
        simp only [List.getD_cons_succ] at hb ⊢
        simp only [PermScatter]
        refine ih xs (acc.set p x) k hnd2 (by simpa using hk) (by simpa using hks) ?_
        simpa using hb

theorem isPermOf_getD_lt {perm : List ℕ} {n k : ℕ} (h : IsPermOf perm n) (hk : k < n) :
    perm.getD k 0 < n := by
  obtain ⟨hl, hb, _⟩ := h
  have hk2 : k < perm.length := hl ▸ hk
  rw [List.getD_eq_getElem _ _ hk2]
  exact hb _ (List.getElem_mem hk2)

theorem isPermOf_surj {perm : List ℕ} {n : ℕ} (h : IsPermOf perm n) {pos : ℕ}
    (hpos : pos < n) : ∃ k, k < n ∧ perm.getD k 0 = pos := by
  obtain ⟨hl, hb, hnd⟩ := h
  let f : Fin n → Fin n := fun k => ⟨perm.getD k 0, isPermOf_getD_lt ⟨hl, hb, hnd⟩ k.2⟩
  have hinj : Function.Injective f := by
    intro a b hab
    have ha : (a : ℕ) < perm.length := hl ▸ a.2
    have hb2 : (b : ℕ) < perm.length := hl ▸ b.2
    have hv : perm.getD (a : ℕ) 0 = perm.getD (b : ℕ) 0 := congrArg Fin.val hab
    rw [List.getD_eq_getElem _ _ ha, List.getD_eq_getElem _ _ hb2] at hv
    exact Fin.ext (hnd.getElem_inj_iff.mp hv)
  obtain ⟨k, hk⟩ := Finite.injective_iff_surjective.mp hinj ⟨pos, hpos⟩
  exact ⟨k, k.2, congrArg Fin.val hk⟩

theorem isPermOf_getD_inj {perm : List ℕ} {n k k' : ℕ} (h : IsPermOf perm n)
    (hk : k < n) (hk' : k' < n) (he : perm.getD k 0 = perm.getD k' 0) : k = k' := by
  obtain ⟨hl, _, hnd⟩ := h
  have h1 : k < perm.length := hl ▸ hk
  have h2 : k' < perm.length := hl ▸ hk'
  rw [List.getD_eq_getElem _ _ h1, List.getD_eq_getElem _ _ h2] at he
  exact hnd.getElem_inj_iff.mp he

theorem permScatter_valid {perm dims i : List ℕ} {n : ℕ} (hp : IsPermOf perm n)
    (hd : dims.length = n) (hv : ValidIndex dims i) :
    ValidIndex (PermScatter perm dims (List.replicate n 0))
      (PermScatter perm i (List.replicate n 0)) := by
  have hi : i.length = n := (validIndex_length hv).trans hd
  refine validIndex_of_getD ?_ ?_
  · rw [permScatter_length, permScatter_length]
  · intro pos hpos
    rw [permScatter_length, List.length_replicate] at hpos
    obtain ⟨k, hk, hke⟩ := isPermOf_surj hp hpos
    rw [← hke]
    rw [permScatter_getD perm i _ k hp.2.2 (hp.1.symm ▸ hk) (hi.symm ▸ hk)
        (by rw [List.length_replicate]; exact isPermOf_getD_lt hp hk)]
    rw [permScatter_getD perm dims _ k hp.2.2 (hp.1.symm ▸ hk) (hd.symm ▸ hk)
        (by rw [List.length_replicate]; exact isPermOf_getD_lt hp hk)]
    exact validIndex_getD hv (hd.symm ▸ hk)

theorem permScatter_inverse {perm pinv : List ℕ} {n : ℕ} (hp : IsPermOf perm n)
    (hpi : IsPermOf pinv n) (hinv : ∀ k < n, pinv.getD (perm.getD k 0) 0 = k)
    (A : List ℕ) (hA : A.length = n) :
    PermScatter pinv (PermScatter perm A (List.replicate n 0))
      (List.replicate n 0) = A := by
  refine ext_getD _ _ 0 ?_ ?_
  · rw [permScatter_length, List.length_replicate, hA]
  · intro pos hpos
    rw [permScatter_length, List.length_replicate] at hpos
    set B := PermScatter perm A (List.replicate n 0) with hB
    have hBl : B.length = n := by rw [hB, permScatter_length, List.length_replicate]
    have hj : perm.getD pos 0 < n := isPermOf_getD_lt hp hpos
    have hpinveq : pinv.getD (perm.getD pos 0) 0 = pos := hinv pos hpos
    calc (PermScatter pinv B (List.replicate n 0)).getD pos 0
        = (PermScatter pinv B (List.replicate n 0)).getD (pinv.getD (perm.getD pos 0) 0) 0 := by
          rw [hpinveq]
      _ = B.getD (perm.getD pos 0) 0 := by
          refine permScatter_getD pinv B _ _ hpi.2.2 (hpi.1.symm ▸ hj) (hBl.symm ▸ hj) ?_
          rw [List.length_replicate, hpinveq]
          exact hpos
      _ = A.getD pos 0 := by
          refine permScatter_getD perm A _ _ hp.2.2 (hp.1.symm ▸ hpos) (hA.symm ▸ hpos) ?_
          rw [List.length_replicate]
          exact hj

theorem indexToOffset_set : ∀ (D W : List ℕ) (p v : ℕ), p < D.length → p < W.length →
    IndexToOffset D (W.set p v) = IndexToOffset D (W.set p 0) + v * (D.take p).prod := by
  intro D
  induction D with
  | nil =>
    intro W p v hp _
    simp at hp
  | cons d ds ih =>
    intro W p v _ hpW
    cases W with
    | nil => simp at hpW
    | cons w ws =>
      cases p with
      | zero =>
        simp only [List.set_cons_zero, IndexToOffset, List.take_zero, List.prod_nil]
        ring
      | succ p =>
        rename_i hpD
        simp only [List.set_cons_succ, IndexToOffset, List.take_succ_cons, List.prod_cons]
        rw [ih ws p v (by simpa using hpD) (by simpa using hpW)]
        ring

/-! ### CopyRow lemmas -/

theorem copyRow_length {α : Type} [CommRing α] (src : List α) (ot : ℕ) (dst : List α)
    (base stride : ℕ) : ∀ cnt, (CopyRow src ot dst base stride cnt).length = dst.length := by
  intro cnt
  induction cnt with
  | zero => rfl
  | succ k ih => simp [CopyRow, ih]

theorem copyRow_getD_hit {α : Type} [CommRing α] {stride : ℕ} (hs : 0 < stride)
    (src : List α) (ot : ℕ) (dst : List α) (base : ℕ) :
    ∀ cnt j, j < cnt → base + j * stride < dst.length →
    (CopyRow src ot dst base stride cnt).getD (base + j * stride) 0 =
      src.getD (ot + j) 0 := by
  intro cnt
  induction cnt with
  | zero =>
    intro j hj
    simp at hj
  | succ k ih =>
    intro j hj hb
    simp only [CopyRow]
    rcases Nat.lt_or_ge j k with hjk | hjk
    · have hne : base + k * stride ≠ base + j * stride := by
        intro he
        have : k * stride = j * stride := by omega
        have := Nat.eq_of_mul_eq_mul_right hs this
        omega
      rw [getD_set_ne _ _ _ hne]
      exact ih j hjk hb
    · have hjek : j = k := by omega
      subst hjek
      refine getD_set_eq _ _ _ _ ?_
      rw [copyRow_length]
      exact hb

theorem copyRow_getD_miss {α : Type} [CommRing α] (src : List α) (ot : ℕ) (dst : List α)
    (base stride : ℕ) : ∀ cnt pos, (∀ j < cnt, pos ≠ base + j * stride) →
    (CopyRow src ot dst base stride cnt).getD pos 0 = dst.getD pos 0 := by
  intro cnt
  induction cnt with
  | zero =>
    intro pos _
    rfl
  | succ k ih =>
    intro pos hpos
    simp only [CopyRow]
    rw [getD_set_ne _ _ _ (fun h => hpos k (Nat.lt_succ_self k) h.symm)]
    exact ih pos fun j hj => hpos j (Nat.lt_succ_of_lt hj)

/-! ### Transposed shape lemmas -/

theorem transShape_length (perm tdim : List ℕ) :
    (TransShape perm tdim).length = tdim.length := by
  unfold TransShape
  rw [permScatter_length, List.length_replicate]

theorem transShape_getD {perm tdim : List ℕ} (hp : IsPermOf perm tdim.length)
    {k : ℕ} (hk : k < tdim.length) :
    (TransShape perm tdim).getD (perm.getD k 0) 0 = tdim.getD k 0 := by
  unfold TransShape
  exact permScatter_getD perm tdim _ k hp.2.2 (hp.1.symm ▸ hk) hk
    (by rw [List.length_replicate]; exact isPermOf_getD_lt hp hk)

theorem transShape_pos {perm tdim : List ℕ} (hp : IsPermOf perm tdim.length)
    (hpos : ∀ x ∈ tdim, 0 < x) : ∀ x ∈ TransShape perm tdim, 0 < x := by
  intro x hx
  obtain ⟨pos, hposlt, hval⟩ := List.mem_iff_getElem.mp hx
  rw [transShape_length] at hposlt
  obtain ⟨k, hk, hke⟩ := isPermOf_surj hp hposlt
  have hgd := transShape_getD hp hk
  rw [hke] at hgd
  rw [List.getD_eq_getElem _ _ (by rw [transShape_length]; exact hposlt)] at hgd
  rw [← hval, hgd]
  refine hpos _ ?_
  rw [List.getD_eq_getElem _ _ hk]
  exact List.getElem_mem hk

theorem transShape_valid {perm tdim i : List ℕ} (hp : IsPermOf perm tdim.length)
    (hv : ValidIndex tdim i) :
    ValidIndex (TransShape perm tdim)
      (PermScatter perm i (List.replicate tdim.length 0)) := by
  unfold TransShape
  exact permScatter_valid hp rfl hv

theorem posR_lt {perm tdim i : List ℕ} (hp : IsPermOf perm tdim.length)
    (hv : ValidIndex tdim i) : PosR perm tdim i < (TransShape perm tdim).prod := by
  unfold PosR
  exact indexToOffset_lt (transShape_valid hp hv)

theorem permScatter_inj {perm : List ℕ} {n : ℕ} (hp : IsPermOf perm n) {i i' : List ℕ}
    (hi : i.length = n) (hi' : i'.length = n)
    (he : PermScatter perm i (List.replicate n 0) =
      PermScatter perm i' (List.replicate n 0)) : i = i' := by
  refine ext_getD _ _ 0 (hi.trans hi'.symm) ?_
  intro pos hpos
  rw [hi] at hpos
  have h1 := permScatter_getD perm i (List.replicate n 0) pos hp.2.2
    (hp.1.symm ▸ hpos) (hi.symm ▸ hpos)
    (by rw [List.length_replicate]; exact isPermOf_getD_lt hp hpos)
  have h2 := permScatter_getD perm i' (List.replicate n 0) pos hp.2.2
    (hp.1.symm ▸ hpos) (hi'.symm ▸ hpos)
    (by rw [List.length_replicate]; exact isPermOf_getD_lt hp hpos)
  rw [← h1, ← h2, he]

theorem posR_inj {perm tdim i i' : List ℕ} (hp : IsPermOf perm tdim.length)
    (hvi : ValidIndex tdim i) (hvi' : ValidIndex tdim i')
    (he : PosR perm tdim i = PosR perm tdim i') : i = i' := by
  unfold PosR at he
  have hs := indexToOffset_inj (transShape_valid hp hvi) (transShape_valid hp hvi') he
  exact permScatter_inj hp (validIndex_length hvi) (validIndex_length hvi') hs

/-! ### The transpose loop invariant -/

theorem validIndex_split {d0 : ℕ} {ds i : List ℕ} (h : ValidIndex (d0 :: ds) i) :
    ValidIndex ds (i.drop 1) ∧ i.getD 0 0 < d0 ∧ i = i.getD 0 0 :: i.drop 1 := by
  cases i with
  | nil => simp [ValidIndex, validIndexB] at h
  | cons j js =>
    rcases validIndex_cons.mp h with ⟨h1, h2⟩
    exact ⟨h2, h1, rfl⟩

theorem transposeLoop_spec {α : Type} [CommRing α] (perm : List ℕ) (d0 : ℕ) (ds : List ℕ)
    (tdata : List α) (hperm : IsPermOf perm (ds.length + 1)) (hd0 : 0 < d0)
    (hds : ∀ x ∈ ds, 0 < x) :
    ∀ (cnt c : ℕ) (rdata : List α), c + cnt = ds.prod →
      rdata.length = (TransShape perm (d0 :: ds)).prod →
      (TransposeLoop perm (d0 :: ds) (TransShape perm (d0 :: ds))
          (IntProduct (TransShape perm (d0 :: ds)) (perm.getD 0 0)) tdata cnt (c * d0)
          (0 :: offsetToIndex ds c) rdata).length = rdata.length ∧
      (∀ i, ValidIndex (d0 :: ds) i → c ≤ IndexToOffset ds (i.drop 1) →
        (TransposeLoop perm (d0 :: ds) (TransShape perm (d0 :: ds))
            (IntProduct (TransShape perm (d0 :: ds)) (perm.getD 0 0)) tdata cnt (c * d0)
            (0 :: offsetToIndex ds c) rdata).getD (PosR perm (d0 :: ds) i) 0 =
          tdata.getD (IndexToOffset (d0 :: ds) i) 0) ∧
      (∀ pos, (∀ i, ValidIndex (d0 :: ds) i → c ≤ IndexToOffset ds (i.drop 1) →
          pos ≠ PosR perm (d0 :: ds) i) →
        (TransposeLoop perm (d0 :: ds) (TransShape perm (d0 :: ds))
            (IntProduct (TransShape perm (d0 :: ds)) (perm.getD 0 0)) tdata cnt (c * d0)
            (0 :: offsetToIndex ds c) rdata).getD pos 0 = rdata.getD pos 0) := by
  have hlen1 : (d0 :: ds).length = ds.length + 1 := by simp
  intro cnt
  induction cnt with
  | zero =>
    intro c rdata hc _
    refine ⟨rfl, ?_, ?_⟩
    · intro i hi hoff
      exfalso
      have hv := (validIndex_split hi).1
      have := indexToOffset_lt hv
      omega
    · intro pos _
      rfl
  | succ k ih =>
    intro c rdata hc hlen
    have hcp : c < ds.prod := by omega
    have hc1 : c + 1 ≤ ds.prod := by omega
    -- the tail multi-index of this iteration
    have htailv : ValidIndex ds (offsetToIndex ds c) := offsetToIndex_valid ds c hcp
    have htailo : IndexToOffset ds (offsetToIndex ds c) = c :=
      indexToOffset_offsetToIndex ds c hcp
    -- decompose the permutation
    obtain ⟨p0, ps, rfl⟩ : ∃ p0 ps, perm = p0 :: ps := by
      cases hpl : perm with
      | nil => rw [hpl] at hperm; exact absurd hperm.1 (by simp)
      | cons a b => exact ⟨a, b, rfl⟩
    simp only [List.getD_cons_zero] at ih ⊢
    have hp0lt : p0 < ds.length + 1 := by
      have := isPermOf_getD_lt hperm (k := 0) (by omega)
      simpa using this
    have hp0nm : p0 ∉ ps := (List.nodup_cons.mp hperm.2.2).1
    -- shape facts
    have hrlen : (TransShape (p0 :: ps) (d0 :: ds)).length = ds.length + 1 := by
      rw [transShape_length, hlen1]
    have hpermL : IsPermOf (p0 :: ps) (d0 :: ds).length := by rwa [hlen1]
    have hposdims : ∀ x ∈ (d0 :: ds), 0 < x := by
      intro x hx
      rcases List.mem_cons.mp hx with h | h
      · subst h; exact hd0
      · exact hds x h
    have hstridepos : 0 < IntProduct (TransShape (p0 :: ps) (d0 :: ds)) p0 := by
      unfold IntProduct
      refine List.prod_pos ?_
      intro x hx
      exact transShape_pos hpermL hposdims x (List.mem_of_mem_take hx)
    -- scatter of a cons index
    have hScatCons : ∀ (j : ℕ) (tail : List ℕ),
        PermScatter (p0 :: ps) (j :: tail) (List.replicate (d0 :: ds).length 0) =
          (PermScatter ps tail (List.replicate (d0 :: ds).length 0)).set p0 j := by
      intro j tail
      show PermScatter ps tail ((List.replicate (d0 :: ds).length 0).set p0 j) = _
      exact permScatter_set_not_mem ps tail _ p0 j hp0nm
    -- stride decomposition of PosR
    have hPosR : ∀ (j : ℕ) (tail : List ℕ),
        PosR (p0 :: ps) (d0 :: ds) (j :: tail) =
          PosR (p0 :: ps) (d0 :: ds) (0 :: tail) +
            j * IntProduct (TransShape (p0 :: ps) (d0 :: ds)) p0 := by
      intro j tail
      unfold PosR
      rw [hScatCons j tail, hScatCons 0 tail]
      have hWlen : (PermScatter ps tail (List.replicate (d0 :: ds).length 0)).length =
          ds.length + 1 := by
        rw [permScatter_length, List.length_replicate, hlen1]
      exact indexToOffset_set _ _ p0 j (hrlen ▸ hp0lt) (hWlen ▸ hp0lt)
    -- one unfolding step of the loop
    have hstep : ∀ rd : List α,
        TransposeLoop (p0 :: ps) (d0 :: ds) (TransShape (p0 :: ps) (d0 :: ds))
            (IntProduct (TransShape (p0 :: ps) (d0 :: ds)) p0) tdata (k + 1) (c * d0)
            (0 :: offsetToIndex ds c) rd =
          TransposeLoop (p0 :: ps) (d0 :: ds) (TransShape (p0 :: ps) (d0 :: ds))
            (IntProduct (TransShape (p0 :: ps) (d0 :: ds)) p0) tdata k ((c + 1) * d0)
            (0 :: offsetToIndex ds (c + 1))
            (CopyRow tdata (c * d0) rd
              (IndexToOffset (TransShape (p0 :: ps) (d0 :: ds))
                (PermScatter (p0 :: ps) (0 :: offsetToIndex ds c)
                  (List.replicate (d0 :: ds).length 0)))
              (IntProduct (TransShape (p0 :: ps) (d0 :: ds)) p0) d0) := by
      intro rd
      show TransposeLoop _ _ _ _ tdata k (c * d0 + (d0 :: ds).headD 0)
          (0 :: NextIndex ((d0 :: ds).drop 1) (offsetToIndex ds c)) _ =
        TransposeLoop _ _ _ _ tdata k ((c + 1) * d0) (0 :: offsetToIndex ds (c + 1)) _
      rw [show (d0 :: ds).headD 0 = d0 from rfl, show (d0 :: ds).drop 1 = ds from rfl,
        nextIndex_offsetToIndex ds c hc1, show c * d0 + d0 = (c + 1) * d0 by ring]
    -- apply the induction hypothesis to the state after this iteration
    have hbase := hPosR
    set rdim := TransShape (p0 :: ps) (d0 :: ds) with hrdim
    set stride := IntProduct rdim p0 with hstride
    set base := IndexToOffset rdim
      (PermScatter (p0 :: ps) (0 :: offsetToIndex ds c)
        (List.replicate (d0 :: ds).length 0)) with hbasedef
    set rdata1 := CopyRow tdata (c * d0) rdata base stride d0 with hrdata1
    have hlen1' : rdata1.length = rdim.prod := by
      rw [hrdata1, copyRow_length, hlen]
    have hih := ih (c + 1) rdata1 (by omega) hlen1'
    obtain ⟨ihlen, ihhit, ihmiss⟩ := hih
    rw [hstep rdata]
    -- positions written by this iteration are PosR of indices with tail offset c
    have hrowpos : ∀ j : ℕ, base + j * stride = PosR (p0 :: ps) (d0 :: ds) (j :: offsetToIndex ds c) := by
      intro j
      rw [hPosR j (offsetToIndex ds c)]
      rfl
    refine ⟨?_, ?_, ?_⟩
    · rw [ihlen, hlen1', hlen]
    · -- the hit clause
      intro i hi hoff
      obtain ⟨htl, hhead, hsplit⟩ := validIndex_split hi
      rcases Nat.lt_or_ge (IndexToOffset ds (i.drop 1)) (c + 1) with hcase | hcase
      · -- this very iteration wrote the value; later iterations do not touch it
        have hoffc : IndexToOffset ds (i.drop 1) = c := by omega
        have htaileq : i.drop 1 = offsetToIndex ds c := by
          rw [← hoffc, offsetToIndex_indexToOffset htl]
        have hieq : i = i.getD 0 0 :: offsetToIndex ds c := by rw [← htaileq]; exact hsplit
        rw [ihmiss (PosR (p0 :: ps) (d0 :: ds) i) ?later]
        case later =>
          intro i' hi' hoff' heq
          have := posR_inj hpermL hi' hi heq.symm
          subst this
          omega
        rw [hieq, ← hrowpos]
        rw [hrdata1, copyRow_getD_hit hstridepos tdata (c * d0) rdata base d0
          (i.getD 0 0) hhead ?bound]
        case bound =>
          rw [hlen, hrowpos, hrdim]
          have hvalid' : ValidIndex (d0 :: ds) (i.getD 0 0 :: offsetToIndex ds c) := by
            rw [← hieq]; exact hi
          exact posR_lt hpermL hvalid'
        congr 1
        rw [hieq]
        show c * d0 + i.getD 0 0 = i.getD 0 0 + d0 * IndexToOffset ds (offsetToIndex ds c)
        rw [htailo]
        ring
      · -- a later iteration writes it
        exact ihhit i hi hcase
    · -- the miss clause
      intro pos hpos
      rw [ihmiss pos ?ge]
      case ge =>
        intro i hi hoff
        exact hpos i hi (by omega)
      rw [hrdata1]
      refine copyRow_getD_miss tdata (c * d0) rdata base stride d0 pos ?_
      intro j hj heq
      refine hpos (j :: offsetToIndex ds c) ?_ ?_ ?_
      · exact validIndex_cons.mpr ⟨hj, htailv⟩
      · show c ≤ IndexToOffset ds ((j :: offsetToIndex ds c).drop 1)
        rw [List.drop_one, List.tail_cons, htailo]
      · rw [← hrowpos]
        exact heq

theorem transposeTensor_spec {α : Type} [CommRing α] (perm : List ℕ) (t : Tensor α)
    (hperm : IsPermOf perm t.dim.length) (hrank : 1 ≤ t.dim.length)
    (hpos : ∀ x ∈ t.dim, 0 < x) :
    ∃ r : Tensor α,
      TransposeTensor perm t = some r ∧
      r.dim = TransShape perm t.dim ∧
      r.dim.length = t.dim.length ∧
      (∀ k < t.dim.length, r.dim.getD (perm.getD k 0) 0 = t.dim.getD k 0) ∧
      r.data.length = (TransShape perm t.dim).prod ∧
      (∀ i, ValidIndex t.dim i →
        r.data.getD (PosR perm t.dim i) 0 = t.data.getD (IndexToOffset t.dim i) 0) := by
  obtain ⟨tdim, tdata⟩ := t
  cases tdim with
  | nil => simp at hrank
  | cons d0 ds =>
  simp only at hperm hpos ⊢
  obtain ⟨p0, ps, rfl⟩ : ∃ p0 ps, perm = p0 :: ps := by
    cases hpl : perm with
    | nil =>
      rw [hpl] at hperm
      exact absurd hperm.1 (by simp)
    | cons a b => exact ⟨a, b, rfl⟩
  have hd0 : 0 < d0 := hpos d0 (List.mem_cons_self d0 ds)
  have hds : ∀ x ∈ ds, 0 < x := fun x hx => hpos x (List.mem_cons_of_mem d0 hx)
  have hperm' : IsPermOf (p0 :: ps) (ds.length + 1) := by
    rwa [show (d0 :: ds).length = ds.length + 1 from by simp] at hperm
  have h1 : (d0 :: ds).prod / d0 = ds.prod := by
    rw [List.prod_cons]
    exact Nat.mul_div_cancel_left _ hd0
  have h2 : List.replicate (d0 :: ds).length (0 : ℕ) = 0 :: offsetToIndex ds 0 := by
    rw [offsetToIndex_zero]
    rfl
  have hspec := transposeLoop_spec (p0 :: ps) d0 ds tdata hperm' hd0 hds ds.prod 0
    (List.replicate (TransShape (p0 :: ps) (d0 :: ds)).prod 0) (by omega)
    (by rw [List.length_replicate])
  simp only [List.getD_cons_zero, Nat.zero_mul] at hspec
  obtain ⟨hL, hHit, _⟩ := hspec
  refine ⟨⟨TransShape (p0 :: ps) (d0 :: ds),
    TransposeLoop (p0 :: ps) (d0 :: ds) (TransShape (p0 :: ps) (d0 :: ds))
      (IntProduct (TransShape (p0 :: ps) (d0 :: ds)) p0) tdata ds.prod 0
      (0 :: offsetToIndex ds 0)
      (List.replicate (TransShape (p0 :: ps) (d0 :: ds)).prod 0)⟩, ?_, rfl, ?_, ?_, ?_, ?_⟩
  · show some (⟨TransShape (p0 :: ps) (d0 :: ds),
      TransposeLoop (p0 :: ps) (d0 :: ds) (TransShape (p0 :: ps) (d0 :: ds))
        (IntProduct (TransShape (p0 :: ps) (d0 :: ds)) p0) tdata ((d0 :: ds).prod / d0) 0
        (List.replicate (d0 :: ds).length 0)
        (List.replicate (TransShape (p0 :: ps) (d0 :: ds)).prod 0)⟩ : Tensor α) = _
    rw [h1, h2]
  · rw [transShape_length]
  · intro k hk
    exact transShape_getD hperm hk
  · rw [hL, List.length_replicate]
  · intro i hi
    exact hHit i hi (Nat.zero_le _)

/-! ### MultiplyTensor -/

theorem getD_drop (l : List ℕ) (n i d : ℕ) : (l.drop n).getD i d = l.getD (n + i) d := by
  rw [List.getD_eq_getElem?_getD, List.getD_eq_getElem?_getD, List.getElem?_drop]

theorem getD_take (l : List ℕ) {n i : ℕ} (d : ℕ) (h : i < n) :
    (l.take n).getD i d = l.getD i d := by
  rw [List.getD_eq_getElem?_getD, List.getD_eq_getElem?_getD, List.getElem?_take, if_pos h]

theorem colmajor_pos_lt {i L j T : ℕ} (hi : i < L) (hj : j < T) : i + L * j < L * T := by
  calc i + L * j < L + L * j := by omega
    _ = L * (j + 1) := by ring
    _ ≤ L * T := Nat.mul_le_mul_left L hj

theorem toInt32_of_lt {n : ℕ} (h : n < 2 ^ 31) : toInt32 n = (n : ℤ) := by
  unfold toInt32
  rw [Nat.mod_eq_of_lt (by omega)]
  push_cast
  omega

theorem toInt32_toNat_of_lt {n : ℕ} (h : n < 2 ^ 31) : (toInt32 n).toNat = n := by
  rw [toInt32_of_lt h]
  exact Int.toNat_natCast n

theorem multiplyTensor_spec {α : Type} [CommRing α] (s t : Tensor α) (m : ℕ)
    (hm : 1 ≤ m) (hp : m ≤ s.dim.length) (hq : m ≤ t.dim.length)
    (hmatch : ∀ i < m, s.dim.getD (s.dim.length - m + i) 0 = t.dim.getD i 0)
    (hspos : ∀ x ∈ s.dim, 0 < x) (htpos : ∀ x ∈ t.dim, 0 < x)
    (hs32 : NumTensorElements s < 2 ^ 31) (ht32 : NumTensorElements t < 2 ^ 31) :
    ∃ r : Tensor α,
      MultiplyTensor s t m = some r ∧
      r.dim = s.dim.take (s.dim.length - m) ++ t.dim.drop m ∧
      r.dim.length = (s.dim.length - m) + (t.dim.length - m) ∧
      r.data.length = (s.dim.take (s.dim.length - m)).prod * (t.dim.drop m).prod ∧
      (∀ i j, i < (s.dim.take (s.dim.length - m)).prod → j < (t.dim.drop m).prod →
        r.data.getD (i + (s.dim.take (s.dim.length - m)).prod * j) 0 =
          ∑ b in Finset.range ((t.dim.take m).prod),
            s.data.getD (i + (s.dim.take (s.dim.length - m)).prod * b) 0 *
            t.data.getD (b + (t.dim.take m).prod * j) 0) := by
  set p := s.dim.length with hpdef
  set q := t.dim.length with hqdef
  set LDS := (s.dim.take (p - m)).prod with hLDSdef
  set K := (s.dim.drop (p - m)).prod with hKdef
  set KT := (t.dim.take m).prod with hKTdef
  set TDT := (t.dim.drop m).prod with hTDTdef
  -- the contracted dimension blocks coincide as lists
  have hlist : s.dim.drop (p - m) = t.dim.take m := by
    refine ext_getD _ _ 0 ?_ ?_
    · rw [List.length_drop, List.length_take]
      omega
    · intro i hi
      rw [List.length_drop] at hi
      have him : i < m := by omega
      rw [getD_drop, getD_take _ 0 him]
      exact hmatch i him
  have hKKT : K = KT := by rw [hKdef, hKTdef, hlist]
  -- element-count decompositions
  have hsplit_s : LDS * K = s.dim.prod := by
    rw [hLDSdef, hKdef, ← List.prod_append, List.take_append_drop]
  have hsplit_t : KT * TDT = t.dim.prod := by
    rw [hKTdef, hTDTdef, ← List.prod_append, List.take_append_drop]
  have hLDSpos : 0 < LDS := List.prod_pos fun x hx => hspos x (List.mem_of_mem_take hx)
  have hKpos : 0 < K := List.prod_pos fun x hx => hspos x (List.mem_of_mem_drop hx)
  have hTDTpos : 0 < TDT := List.prod_pos fun x hx => htpos x (List.mem_of_mem_drop hx)
  have hKTpos : 0 < KT := hKKT ▸ hKpos
  -- the counts passed to the kernels stay below 2^31, so the casts are exact
  have hLDS32 : LDS < 2 ^ 31 := by
    have h1 : LDS ≤ LDS * K := Nat.le_mul_of_pos_right LDS hKpos
    rw [hsplit_s] at h1
    exact lt_of_le_of_lt h1 hs32
  have hKT32 : KT < 2 ^ 31 := by
    have h1 : KT ≤ KT * TDT := Nat.le_mul_of_pos_right KT hTDTpos
    rw [hsplit_t] at h1
    exact lt_of_le_of_lt h1 ht32
  have hTDT32 : TDT < 2 ^ 31 := by
    have h1 : TDT ≤ KT * TDT := Nat.le_mul_of_pos_left TDT hKTpos
    rw [hsplit_t] at h1
    exact lt_of_le_of_lt h1 ht32
  -- the computed leading/trailing dimensions
  have hIPs : IntProduct (s.dim.drop (p - m)) m = K := by
    rw [IntProduct, hKdef, List.take_of_length_le]
    rw [List.length_drop]
    omega
  have hlds : NumTensorElements s / IntProduct (s.dim.drop (p - m)) m = LDS := by
    rw [hIPs, NumTensorElements, ← hsplit_s]
    exact Nat.mul_div_cancel LDS hKpos
  have hldt : IntProduct t.dim m = KT := by rw [IntProduct, hKTdef]
  have htdt : NumTensorElements t / IntProduct t.dim m = TDT := by
    rw [hldt, NumTensorElements, ← hsplit_t, Nat.mul_comm]
    exact Nat.mul_div_cancel TDT hKTpos
  -- guards
  have hg1 : 1 ≤ m ∧ m ≤ p ∧ m ≤ q ∧
      (∀ i < m, s.dim.getD (p - m + i) 0 = t.dim.getD i 0) := ⟨hm, hp, hq, hmatch⟩
  have hrprod : (s.dim.take (p - m) ++ t.dim.drop m).prod = LDS * TDT := by
    rw [List.prod_append]
  have hg2 : s.dim.take (p - m) ++ t.dim.drop m = [] ∨
      0 < (s.dim.take (p - m) ++ t.dim.drop m).prod := by
    right
    rw [hrprod]
    exact Nat.mul_pos hLDSpos hTDTpos
  simp only [MultiplyTensor]
  rw [← hpdef, ← hqdef]
  rw [if_pos hg1, if_pos hg2, hlds, htdt, hldt]
  rw [if_pos ⟨hLDSpos, hKTpos⟩]
  have hrdimlen : (s.dim.take (p - m) ++ t.dim.drop m).length =
      (p - m) + (q - m) := by
    rw [List.length_append, List.length_take, List.length_drop]
    omega
  have hbuflen : (List.replicate (s.dim.take (p - m) ++ t.dim.drop m).prod (0 : α)).length =
      LDS * TDT := by
    rw [List.length_replicate, hrprod]
  by_cases hL1 : LDS = 1
  · by_cases hT1 : TDT = 1
    · -- inner product branch
      rw [if_pos hL1, if_pos hT1]
      have hnn : NumTensorElements s = NumTensorElements t := by
        rw [NumTensorElements, NumTensorElements, ← hsplit_s, ← hsplit_t, hL1, hT1, hKKT]
        ring
      have hr1 : (s.dim.take (p - m) ++ t.dim.drop m).prod = 1 := by
        rw [hrprod, hL1, hT1]
      rw [if_pos ⟨hnn, hr1⟩]
      refine ⟨_, rfl, rfl, hrdimlen, ?_, ?_⟩
      · rw [List.length_set, List.length_replicate, hrprod]
      · intro i j hi hj
        rw [hL1] at hi
        rw [hT1] at hj
        have hi0 : i = 0 := by omega
        have hj0 : j = 0 := by omega
        subst hi0
        subst hj0
        have hnsK : NumTensorElements s = KT := by
          rw [NumTensorElements, ← hsplit_s, hL1, hKKT]
          ring
        simp only [Nat.zero_add, Nat.mul_zero, Nat.add_zero, hL1, Nat.one_mul]
        have hset0 : 0 < (List.replicate
            (s.dim.take (p - m) ++ t.dim.drop m).prod (0 : α)).length := by
          rw [hbuflen]
          exact Nat.mul_pos hLDSpos hTDTpos
        rw [getD_set_eq _ _ _ _ hset0]
        rw [zdotu, toInt32_toNat_of_lt hs32, hnsK]
    · -- vector-matrix branch
      rw [if_pos hL1, if_neg hT1]
      refine ⟨_, rfl, rfl, hrdimlen, ?_, ?_⟩
      · simp only [zgemvT, List.length_map, List.length_range, List.length_replicate]
        exact hrprod
      · intro i j hi hj
        rw [hL1] at hi
        have hi0 : i = 0 := by omega
        subst hi0
        rw [hL1]
        simp only [Nat.zero_add, Nat.one_mul]
        have hjlen : j < (List.replicate
            (s.dim.take (p - m) ++ t.dim.drop m).prod (0 : α)).length := by
          rw [hbuflen, hL1, Nat.one_mul]
          exact hj
        rw [zgemvT, getD_map_range _ 0 hjlen]
        simp only [toInt32_toNat_of_lt hKT32, toInt32_toNat_of_lt hTDT32]
        rw [if_pos hj]
        refine Finset.sum_congr rfl ?_
        intro b _
        ring
  · by_cases hT1 : TDT = 1
    · -- matrix-vector branch
      rw [if_neg hL1, if_pos hT1]
      refine ⟨_, rfl, rfl, hrdimlen, ?_, ?_⟩
      · simp only [zgemvN, List.length_map, List.length_range, List.length_replicate]
        exact hrprod
      · intro i j hi hj
        rw [hT1] at hj
        have hj0 : j = 0 := by omega
        subst hj0
        simp only [Nat.mul_zero, Nat.add_zero]
        have hilen : i < (List.replicate
            (s.dim.take (p - m) ++ t.dim.drop m).prod (0 : α)).length := by
          rw [hbuflen, hT1, Nat.mul_one]
          exact hi
        rw [zgemvN, getD_map_range _ 0 hilen]
        simp only [toInt32_toNat_of_lt hLDS32, toInt32_toNat_of_lt hKT32]
        rw [if_pos hi]
    · -- matrix-matrix branch
      rw [if_neg hL1, if_neg hT1]
      refine ⟨_, rfl, rfl, hrdimlen, ?_, ?_⟩
      · simp only [zgemm, List.length_map, List.length_range, List.length_replicate]
        exact hrprod
      · intro i j hi hj
        have holen : i + LDS * j < (List.replicate
            (s.dim.take (p - m) ++ t.dim.drop m).prod (0 : α)).length := by
          rw [hbuflen]
          exact colmajor_pos_lt hi hj
        rw [zgemm, getD_map_range _ 0 holen]
        simp only [toInt32_toNat_of_lt hLDS32, toInt32_toNat_of_lt hTDT32,
          toInt32_toNat_of_lt hKT32]
        rw [if_pos (colmajor_pos_lt hi hj)]
        have hmod : (i + LDS * j) % LDS = i := by
          rw [Nat.add_mul_mod_self_left]
          exact Nat.mod_eq_of_lt hi
        have hdiv : (i + LDS * j) / LDS = j := by
          rw [Nat.add_mul_div_left _ _ hLDSpos, Nat.div_eq_of_lt hi, Nat.zero_add]
        rw [hmod, hdiv]


/-! ### Kronecker product -/

theorem getD_append_left (x y : List ℕ) {i : ℕ} (d : ℕ) (h : i < x.length) :
    (x ++ y).getD i d = x.getD i d := by
  rw [List.getD_eq_getElem?_getD, List.getD_eq_getElem?_getD, List.getElem?_append, if_pos h]

theorem getD_append_right (x y : List ℕ) (i d : ℕ) :
    (x ++ y).getD (x.length + i) d = y.getD i d := by
  rw [List.getD_eq_getElem?_getD, List.getD_eq_getElem?_getD, List.getElem?_append,
    if_neg (by omega)]
  congr 2
  omega

theorem kronPerm_length (n : ℕ) : (KronPerm n).length = 2 * n := by
  simp [KronPerm]
  omega

theorem kronPerm_getD_lo {n k : ℕ} (hk : k < n) : (KronPerm n).getD k 0 = 2 * k := by
  unfold KronPerm
  rw [getD_append_left _ _ _ (by simpa using hk)]
  rw [getD_map_range _ 0 hk]

theorem kronPerm_getD_hi {n k : ℕ} (hk : k < n) :
    (KronPerm n).getD (n + k) 0 = 2 * k + 1 := by
  unfold KronPerm
  have hlen : ((List.range n).map fun k => 2 * k).length = n := by simp
  rw [show n + k = ((List.range n).map fun k => 2 * k).length + k from by rw [hlen]]
  rw [getD_append_right]
  rw [getD_map_range _ 0 hk]

theorem kronPerm_isPerm (n : ℕ) : IsPermOf (KronPerm n) (2 * n) := by
  refine ⟨kronPerm_length n, ?_, ?_⟩
  · intro p hp
    unfold KronPerm at hp
    rcases List.mem_append.mp hp with h | h <;>
      obtain ⟨k, hk, rfl⟩ := List.mem_map.mp h <;>
      rw [List.mem_range] at hk <;> omega
  · unfold KronPerm
    rw [List.nodup_append]
    refine ⟨List.Nodup.map (fun a b hab => by omega) (List.nodup_range n),
      List.Nodup.map (fun a b hab => by omega) (List.nodup_range n), ?_⟩
    intro x hx hy
    obtain ⟨a, _, rfl⟩ := List.mem_map.mp hx
    obtain ⟨b, _, hb⟩ := List.mem_map.mp hy
    omega

theorem interleave_length : ∀ (x y : List ℕ), y.length = x.length →
    (Interleave x y).length = 2 * x.length := by
  intro x
  induction x with
  | nil =>
    intro y hy
    cases y with
    | nil => rfl
    | cons b bs => simp at hy
  | cons a as ih =>
    intro y hy
    cases y with
    | nil => simp at hy
    | cons b bs =>
      simp only [Interleave, List.length_cons]
      rw [ih bs (by simpa using hy)]
      omega

theorem interleave_getD_lo : ∀ (x y : List ℕ), y.length = x.length → ∀ {i : ℕ}, i < x.length →
    (Interleave x y).getD (2 * i) 0 = x.getD i 0 := by
  intro x
  induction x with
  | nil =>
    intro y _ i hi
    simp at hi
  | cons a as ih =>
    intro y hy i hi
    cases y with
    | nil => simp at hy
    | cons b bs =>
      cases i with
      | zero => rfl
      | succ i =>
        show (Interleave (a :: as) (b :: bs)).getD (2 * (i + 1)) 0 = _
        rw [show 2 * (i + 1) = 2 * i + 1 + 1 from by ring]
        simp only [Interleave]
        rw [List.getD_cons_succ, List.getD_cons_succ, List.getD_cons_succ]
        exact ih bs (by simpa using hy) (by simpa using hi)

theorem interleave_getD_hi : ∀ (x y : List ℕ), y.length = x.length → ∀ {i : ℕ}, i < y.length →
    (Interleave x y).getD (2 * i + 1) 0 = y.getD i 0 := by
  intro x
  induction x with
  | nil =>
    intro y hy i hi
    rw [hy] at hi
    simp at hi
  | cons a as ih =>
    intro y hy i hi
    cases y with
    | nil => simp at hy
    | cons b bs =>
      cases i with
      | zero => rfl
      | succ i =>
        show (Interleave (a :: as) (b :: bs)).getD (2 * (i + 1) + 1) 0 = _
        rw [show 2 * (i + 1) + 1 = 2 * i + 1 + 1 + 1 from by ring]
        simp only [Interleave]
        rw [List.getD_cons_succ, List.getD_cons_succ, List.getD_cons_succ]
        exact ih bs (by simpa using hy) (by simpa using hi)

theorem interleave_prod : ∀ (x y : List ℕ), y.length = x.length →
    (Interleave x y).prod = x.prod * y.prod := by
  intro x
  induction x with
  | nil =>
    intro y hy
    cases y with
    | nil => rfl
    | cons b bs => simp at hy
  | cons a as ih =>
    intro y hy
    cases y with
    | nil => simp at hy
    | cons b bs =>
      simp only [Interleave, List.prod_cons]
      rw [ih bs (by simpa using hy)]
      ring

theorem zipWith_mul_prod : ∀ (x y : List ℕ), y.length = x.length →
    (List.zipWith (· * ·) x y).prod = x.prod * y.prod := by
  intro x
  induction x with
  | nil =>
    intro y hy
    cases y with
    | nil => rfl
    | cons b bs => simp at hy
  | cons a as ih =>
    intro y hy
    cases y with
    | nil => simp at hy
    | cons b bs =>
      simp only [List.zipWith_cons_cons, List.prod_cons]
      rw [ih bs (by simpa using hy)]
      ring

theorem validIndex_append : ∀ {d1 i1 d2 i2 : List ℕ}, ValidIndex d1 i1 → ValidIndex d2 i2 →
    ValidIndex (d1 ++ d2) (i1 ++ i2) := by
  intro d1
  induction d1 with
  | nil =>
    intro i1 d2 i2 h1 h2
    cases i1 with
    | nil => simpa using h2
    | cons x xs => simp [ValidIndex, validIndexB] at h1
  | cons d ds ih =>
    intro i1 d2 i2 h1 h2
    cases i1 with
    | nil => simp [ValidIndex, validIndexB] at h1
    | cons x xs =>
      rcases validIndex_cons.mp h1 with ⟨ha, hb⟩
      exact validIndex_cons.mpr ⟨ha, ih hb h2⟩

theorem combineIdx_offset : ∀ (D a E b : List ℕ), a.length = D.length →
    E.length = D.length → b.length = D.length →
    IndexToOffset (List.zipWith (· * ·) D E) (CombineIdx a D b) =
      IndexToOffset (Interleave D E) (Interleave a b) := by
  intro D
  induction D with
  | nil =>
    intro a E b ha hE hb
    rfl
  | cons d ds ih =>
    intro a E b ha hE hb
    cases a with
    | nil => simp at ha
    | cons a0 as =>
    cases E with
    | nil => simp at hE
    | cons e es =>
    cases b with
    | nil => simp at hb
    | cons b0 bs =>
    simp only [List.zipWith_cons_cons, CombineIdx, Interleave, IndexToOffset]
    rw [ih as es bs (by simpa using ha) (by simpa using hE) (by simpa using hb)]
    ring

theorem scatter_kronPerm_interleave (n : ℕ) (x y : List ℕ) (hx : x.length = n)
    (hy : y.length = n) :
    PermScatter (KronPerm n) (x ++ y) (List.replicate (2 * n) 0) = Interleave x y := by
  have hyx : y.length = x.length := by omega
  refine ext_getD _ _ 0 ?_ ?_
  · rw [permScatter_length, List.length_replicate, interleave_length x y hyx, hx]
  · intro pos hpos
    rw [permScatter_length, List.length_replicate] at hpos
    have hperm := kronPerm_isPerm n
    rcases Nat.even_or_odd pos with he | ho
    · obtain ⟨i, hi⟩ := he
      have hin : i < n := by omega
      have hpos2 : pos = 2 * i := by omega
      subst hpos2
      rw [← kronPerm_getD_lo hin]
      rw [permScatter_getD (KronPerm n) (x ++ y) _ i hperm.2.2
        (by rw [kronPerm_length]; omega) (by rw [List.length_append]; omega)
        (by rw [List.length_replicate, kronPerm_getD_lo hin]; omega)]
      rw [kronPerm_getD_lo hin]
      rw [getD_append_left x y 0 (by omega), interleave_getD_lo x y hyx (by omega)]
    · obtain ⟨i, hi⟩ := ho
      have hin : i < n := by omega
      subst hi
      rw [← kronPerm_getD_hi hin]
      rw [permScatter_getD (KronPerm n) (x ++ y) _ (n + i) hperm.2.2
        (by rw [kronPerm_length]; omega) (by rw [List.length_append]; omega)
        (by rw [List.length_replicate, kronPerm_getD_hi hin]; omega)]
      rw [kronPerm_getD_hi hin]
      rw [show n + i = x.length + i from by omega, getD_append_right,
        interleave_getD_hi x y hyx (by omega)]

theorem zipWith_mul_getD : ∀ (x y : List ℕ) {k : ℕ}, k < x.length → k < y.length →
    (List.zipWith (· * ·) x y).getD k 0 = x.getD k 0 * y.getD k 0 := by
  intro x
  induction x with
  | nil =>
    intro y k hk
    simp at hk
  | cons a as ih =>
    intro y k hkx hky
    cases y with
    | nil => simp at hky
    | cons b bs =>
      cases k with
      | zero => rfl
      | succ k =>
        simp only [List.zipWith_cons_cons, List.getD_cons_succ]
        exact ih bs (by simpa using hkx) (by simpa using hky)

theorem tensorKroneckerProduct_spec {α : Type} [CommRing α] (s t : Tensor α)
    (hrank : s.dim.length = t.dim.length) (hr1 : 1 ≤ s.dim.length)
    (hspos : ∀ x ∈ s.dim, 0 < x) (htpos : ∀ x ∈ t.dim, 0 < x)
    (hs32 : NumTensorElements s < 2 ^ 31) (ht32 : NumTensorElements t < 2 ^ 31) :
    ∃ r : Tensor α,
      TensorKroneckerProduct s t = some r ∧
      r.dim = List.zipWith (· * ·) s.dim t.dim ∧
      r.dim.length = s.dim.length ∧
      (∀ k < s.dim.length, r.dim.getD k 0 = s.dim.getD k 0 * t.dim.getD k 0) ∧
      (∀ i j, ValidIndex s.dim i → ValidIndex t.dim j →
        r.data.getD (IndexToOffset (List.zipWith (· * ·) s.dim t.dim)
          (CombineIdx i s.dim j)) 0 =
        s.data.getD (IndexToOffset s.dim i) 0 * t.data.getD (IndexToOffset t.dim j) 0) := by
  have htlen : t.dim.length = s.dim.length := hrank.symm
  have hn2 : (s.dim ++ t.dim).length = 2 * s.dim.length := by
    rw [List.length_append, htlen]
    ring
  have hperm : IsPermOf (KronPerm s.dim.length) (s.dim ++ t.dim).length := by
    rw [hn2]
    exact kronPerm_isPerm s.dim.length
  have hupos : ∀ x ∈ s.dim ++ t.dim, 0 < x := by
    intro x hx
    rcases List.mem_append.mp hx with h | h
    · exact hspos x h
    · exact htpos x h
  have hur : 1 ≤ (s.dim ++ t.dim).length := by
    rw [hn2]
    omega
  obtain ⟨r', hr'eq, hr'dim, hr'dimlen, hr'getD, hr'len, hr'elem⟩ :=
    transposeTensor_spec (KronPerm s.dim.length)
      (⟨s.dim ++ t.dim, zgeru (toInt32 (NumTensorElements s)) (toInt32 (NumTensorElements t))
        s.data t.data (List.replicate (s.dim ++ t.dim).prod 0)⟩ : Tensor α) hperm hur hupos
  have hshape : TransShape (KronPerm s.dim.length) (s.dim ++ t.dim) =
      Interleave s.dim t.dim := by
    unfold TransShape
    rw [hn2]
    exact scatter_kronPerm_interleave s.dim.length s.dim t.dim rfl htlen
  have hguard : (List.zipWith (· * ·) s.dim t.dim).prod = NumTensorElements r' := by
    show _ = r'.dim.prod
    rw [hr'dim, hshape, interleave_prod _ _ htlen, zipWith_mul_prod _ _ htlen]
  simp only [TensorKroneckerProduct]
  rw [if_pos hrank, hr'eq, Option.some_bind, if_pos hguard]
  refine ⟨⟨List.zipWith (· * ·) s.dim t.dim, r'.data⟩, rfl, rfl, ?_, ?_, ?_⟩
  · simp [List.length_zipWith, htlen]
  · intro k hk
    exact zipWith_mul_getD s.dim t.dim hk (htlen ▸ hk)
  · intro i j hi hj
    have hilen : i.length = s.dim.length := validIndex_length hi
    have hjlen : j.length = t.dim.length := validIndex_length hj
    show r'.data.getD _ 0 = _
    rw [combineIdx_offset s.dim i t.dim j hilen htlen (by rw [hjlen, htlen])]
    have hposR : PosR (KronPerm s.dim.length) (s.dim ++ t.dim) (i ++ j) =
        IndexToOffset (Interleave s.dim t.dim) (Interleave i j) := by
      unfold PosR
      rw [hshape, hn2]
      rw [scatter_kronPerm_interleave s.dim.length i j hilen (hjlen.trans htlen)]
    rw [← hposR]
    rw [hr'elem (i ++ j) (validIndex_append hi hj)]
    show (zgeru (toInt32 (NumTensorElements s)) (toInt32 (NumTensorElements t)) s.data t.data
      (List.replicate (s.dim ++ t.dim).prod 0)).getD (IndexToOffset (s.dim ++ t.dim) (i ++ j)) 0 = _
    rw [indexToOffset_append s.dim i t.dim j hilen]
    have hmpos : 0 < NumTensorElements s := List.prod_pos hspos
    have hnpos : 0 < NumTensorElements t := List.prod_pos htpos
    have hoffS : IndexToOffset s.dim i < NumTensorElements s := indexToOffset_lt hi
    have hoffT : IndexToOffset t.dim j < NumTensorElements t := indexToOffset_lt hj
    have hosmall : IndexToOffset s.dim i + s.dim.prod * IndexToOffset t.dim j <
        NumTensorElements s * NumTensorElements t := colmajor_pos_lt hoffS hoffT
    have hAlen : (List.replicate (s.dim ++ t.dim).prod (0 : α)).length =
        NumTensorElements s * NumTensorElements t := by
      rw [List.length_replicate, List.prod_append]
      rfl
    rw [zgeru, getD_map_range _ 0 (by rw [hAlen]; exact hosmall)]
    simp only [toInt32_toNat_of_lt hs32, toInt32_toNat_of_lt ht32]
    rw [getD_replicate _ _ (by rw [List.prod_append]; exact hosmall)]
    rw [if_pos hosmall, zero_add]
    have hmod : (IndexToOffset s.dim i + s.dim.prod * IndexToOffset t.dim j) %
        NumTensorElements s = IndexToOffset s.dim i := by
      show _ % s.dim.prod = _
      rw [Nat.add_mul_mod_self_left]
      exact Nat.mod_eq_of_lt hoffS
    have hdiv : (IndexToOffset s.dim i + s.dim.prod * IndexToOffset t.dim j) /
        NumTensorElements s = IndexToOffset t.dim j := by
      show _ / s.dim.prod = _
      rw [Nat.add_mul_div_left _ _ (show 0 < s.dim.prod from hmpos),
        Nat.div_eq_of_lt (show IndexToOffset s.dim i < s.dim.prod from hoffS), Nat.zero_add]
    rw [hmod, hdiv]

/-! ### Identity tensor and trace -/

theorem writeDiagOnes_length {α : Type} [CommRing α] (stride : ℕ) :
    ∀ (cnt : ℕ) (data : List α), (writeDiagOnes stride cnt data).length = data.length := by
  intro cnt
  induction cnt with
  | zero => intro data; rfl
  | succ k ih =>
    intro data
    simp [writeDiagOnes, ih]

theorem writeDiagOnes_getD_hit {α : Type} [CommRing α] {stride : ℕ} (hs : 0 < stride)
    (data : List α) : ∀ (cnt : ℕ) {j : ℕ}, j < cnt → j * stride < data.length →
    (writeDiagOnes stride cnt data).getD (j * stride) 0 = 1 := by
  intro cnt
  induction cnt with
  | zero =>
    intro j hj
    simp at hj
  | succ k ih =>
    intro j hj hb
    simp only [writeDiagOnes]
    rcases Nat.lt_or_ge j k with hjk | hjk
    · have hne : k * stride ≠ j * stride := by
        intro he
        have := Nat.eq_of_mul_eq_mul_right hs he
        omega
      rw [getD_set_ne _ _ _ hne]
      exact ih hjk hb
    · have hjek : j = k := by omega
      subst hjek
      refine getD_set_eq _ _ _ _ ?_
      rw [writeDiagOnes_length]
      exact hb

theorem writeDiagOnes_getD_miss {α : Type} [CommRing α] (stride : ℕ) (data : List α) :
    ∀ (cnt : ℕ) (pos : ℕ), (∀ j < cnt, pos ≠ j * stride) →
    (writeDiagOnes stride cnt data).getD pos 0 = data.getD pos 0 := by
  intro cnt
  induction cnt with
  | zero =>
    intro pos _
    rfl
  | succ k ih =>
    intro pos hpos
    simp only [writeDiagOnes]
    rw [getD_set_ne _ _ _ (fun h => hpos k (Nat.lt_succ_self k) h.symm)]
    exact ih pos fun j hj => hpos j (Nat.lt_succ_of_lt hj)

theorem diag_offset : ∀ (r n j : ℕ),
    IndexToOffset (List.replicate r n) (List.replicate r j) =
      j * ∑ k in Finset.range r, n ^ k := by
  intro r
  induction r with
  | zero =>
    intro n j
    simp [IndexToOffset]
  | succ r ih =>
    intro n j
    show j + n * IndexToOffset (List.replicate r n) (List.replicate r j) = _
    rw [ih n j, Finset.sum_range_succ']
    simp only [pow_zero, pow_succ]
    rw [← Finset.sum_mul]
    ring

theorem diag_stride_pos {n : ℕ} : ∀ r, 1 ≤ r → 0 < ∑ k in Finset.range r, n ^ k := by
  intro r hr
  have h0 : (0 : ℕ) ∈ Finset.range r := by
    rw [Finset.mem_range]
    omega
  have := Finset.single_le_sum (f := fun k => n ^ k) (fun i _ => Nat.zero_le _) h0
  simpa using Nat.lt_of_lt_of_le Nat.zero_lt_one this

theorem diag_offset_lt {n j : ℕ} (hj : j < n) :
    ∀ r, 1 ≤ r → j * (∑ k in Finset.range r, n ^ k) < n ^ r := by
  intro r
  induction r with
  | zero =>
    intro hr
    omega
  | succ r ih =>
    intro _
    rcases Nat.eq_zero_or_pos r with h0 | hr
    · subst h0
      simpa using hj
    · have IH := ih hr
      have hS : (∑ k in Finset.range (r + 1), n ^ k) =
          1 + n * ∑ k in Finset.range r, n ^ k := by
        rw [Finset.sum_range_succ']
        simp only [pow_zero, pow_succ]
        rw [← Finset.sum_mul]
        ring
      rw [hS]
      have h2 : n * (j * (∑ k in Finset.range r, n ^ k) + 1) ≤ n * n ^ r :=
        Nat.mul_le_mul_left n IH
      calc j * (1 + n * ∑ k in Finset.range r, n ^ k)
          = j + n * (j * ∑ k in Finset.range r, n ^ k) := by ring
        _ < n * (j * ∑ k in Finset.range r, n ^ k) + n := by omega
        _ = n * (j * (∑ k in Finset.range r, n ^ k) + 1) := by ring
        _ ≤ n * n ^ r := h2
        _ = n ^ (r + 1) := by rw [pow_succ]; ring

theorem validIndex_replicate {n j : ℕ} (hj : j < n) :
    ∀ r, ValidIndex (List.replicate r n) (List.replicate r j) := by
  intro r
  induction r with
  | zero => exact validIndex_nil
  | succ r ih =>
    rw [List.replicate_succ, List.replicate_succ]
    exact validIndex_cons.mpr ⟨hj, ih⟩

theorem replicate_headD {n r : ℕ} (hr : 1 ≤ r) : (List.replicate r n).headD 0 = n := by
  cases r with
  | zero => omega
  | succ k => rfl

theorem pow_split {n r : ℕ} (hr : 1 ≤ r) : n ^ r = n * n ^ (r - 1) := by
  conv_lhs => rw [show r = (r - 1) + 1 from by omega]
  rw [pow_succ]
  ring

theorem identityTensor_spec {α : Type} [CommRing α] (t : Tensor α) {r n : ℕ}
    (hdim : t.dim = List.replicate r n) (hr : 1 ≤ r) :
    ∃ t' : Tensor α,
      IdentityTensor t = some t' ∧
      t'.dim = t.dim ∧
      t'.data.length = n * n ^ (r - 1) ∧
      (∀ j < n, t'.data.getD (j * ∑ k in Finset.range r, n ^ k) 0 = 1) ∧
      (∀ j < n, t'.data.getD (IndexToOffset t.dim (List.replicate r j)) 0 = 1) ∧
      (∀ i, ValidIndex t.dim i → (∀ j < n, i ≠ List.replicate r j) →
        t'.data.getD (IndexToOffset t.dim i) 0 = 0) ∧
      TensorTrace t' = some ((n : α)) := by
  have hlen : t.dim.length = r := by rw [hdim, List.length_replicate]
  have hhead : t.dim.headD 0 = n := by rw [hdim]; exact replicate_headD hr
  have hguard : 1 ≤ t.dim.length ∧ ∀ d ∈ t.dim, d = t.dim.headD 0 := by
    refine ⟨by omega, ?_⟩
    intro d hd
    rw [hhead]
    rw [hdim] at hd
    exact List.eq_of_mem_replicate hd
  have hstridepos : 0 < ∑ k in Finset.range r, n ^ k := diag_stride_pos r hr
  simp only [IdentityTensor]
  rw [if_pos hguard, hhead, hlen]
  refine ⟨_, rfl, rfl, ?_, ?_, ?_, ?_, ?_⟩
  · rw [writeDiagOnes_length, List.length_replicate]
  · intro j hj
    refine writeDiagOnes_getD_hit hstridepos _ n hj ?_
    rw [List.length_replicate, ← pow_split hr]
    exact diag_offset_lt hj r hr
  · intro j hj
    rw [hdim, diag_offset]
    refine writeDiagOnes_getD_hit hstridepos _ n hj ?_
    rw [List.length_replicate, ← pow_split hr]
    exact diag_offset_lt hj r hr
  · intro i hvi hne
    have hmiss : ∀ j < n, IndexToOffset t.dim i ≠ j * ∑ k in Finset.range r, n ^ k := by
      intro j hj he
      refine hne j hj ?_
      refine indexToOffset_inj (hdim ▸ hvi) (hdim ▸ validIndex_replicate hj r) ?_
      calc IndexToOffset (List.replicate r n) i
          = IndexToOffset t.dim i := by rw [hdim]
        _ = j * ∑ k in Finset.range r, n ^ k := he
        _ = IndexToOffset (List.replicate r n) (List.replicate r j) := (diag_offset r n j).symm
    rw [writeDiagOnes_getD_miss _ _ n _ hmiss]
    have hlt : IndexToOffset t.dim i < n * n ^ (r - 1) := by
      have h3 : t.dim.prod = n * n ^ (r - 1) := by
        rw [hdim, List.prod_replicate]
        exact pow_split hr
      exact h3 ▸ indexToOffset_lt hvi
    exact getD_replicate _ _ hlt
  · have hguard2 : 1 ≤ (Tensor.mk t.dim
        (writeDiagOnes (∑ k in Finset.range r, n ^ k) n
          (List.replicate (n * n ^ (r - 1)) (0 : α)))).dim.length ∧
        ∀ d ∈ (Tensor.mk t.dim (writeDiagOnes (∑ k in Finset.range r, n ^ k) n
          (List.replicate (n * n ^ (r - 1)) (0 : α)))).dim,
          d = (Tensor.mk t.dim (writeDiagOnes (∑ k in Finset.range r, n ^ k) n
            (List.replicate (n * n ^ (r - 1)) (0 : α)))).dim.headD 0 := hguard
    simp only [TensorTrace]
    rw [if_pos hguard2]
    congr 1
    have hval : ∀ j ∈ Finset.range n,
        (writeDiagOnes (∑ k in Finset.range r, n ^ k) n
          (List.replicate (n * n ^ (r - 1)) (0 : α))).getD
            (j * ∑ k in Finset.range t.dim.length, (t.dim.headD 0) ^ k) 0 = 1 := by
      intro j hj
      rw [Finset.mem_range] at hj
      rw [hhead, hlen]
      refine writeDiagOnes_getD_hit hstridepos _ n hj ?_
      rw [List.length_replicate, ← pow_split hr]
      exact diag_offset_lt hj r hr
    rw [hhead, hlen] at hval ⊢
    rw [Finset.sum_congr rfl hval]
    rw [Finset.sum_const, Finset.card_range, nsmul_eq_mul, mul_one]

/-! ### Claim theorems -/

/-- C10: DeleteTensor is idempotent on the tensor state: after `DeleteTensor t`
the tensor holds `ndim = 0` and `data = NULL`; a second `DeleteTensor` call
frees no live buffer and leaves that state unchanged; and deleting a
moved-from source also frees no live buffer, so deleting an already-deleted
or moved-from tensor is harmless. -/
theorem c10_delete_tensor_idempotent {α : Type} (t : CTensor α) (src dst : CTensor α) :
    (DeleteTensor t).ndim = 0 ∧
    (DeleteTensor t).data = none ∧
    DeleteTensor (DeleteTensor t) = DeleteTensor t ∧
    DeleteTensorLiveFrees (DeleteTensor t) = 0 ∧
    DeleteTensorLiveFrees (MoveTensorData src dst).1 = 0 := by
  refine ⟨rfl, rfl, rfl, ?_, ?_⟩
  · simp [DeleteTensor, DeleteTensorLiveFrees]
  · simp [MoveTensorData, DeleteTensorLiveFrees]

/-- C6 counterexample: moving out of a rank-1 source transfers the buffers,
but the source's `ndim` field stays 1; the claimed post-condition
`source.rank = 0` is false (tensor.c:121-137 never writes `src->ndim`). -/
theorem c6_move_rank_counterexample :
    (MoveTensorData (⟨1, some [2], some [(7 : ℤ)]⟩ : CTensor ℤ) ⟨0, none, none⟩).2 =
      ⟨1, some [2], some [7]⟩ ∧
    (MoveTensorData (⟨1, some [2], some [(7 : ℤ)]⟩ : CTensor ℤ) ⟨0, none, none⟩).1 =
      ⟨1, none, none⟩ ∧
    ¬ (MoveTensorData (⟨1, some [2], some [(7 : ℤ)]⟩ : CTensor ℤ) ⟨0, none, none⟩).1.ndim = 0 := by
  refine ⟨rfl, rfl, ?_⟩
  decide

/-- C6 (amended): after `MoveTensorData src dst` the destination holds the
source's former rank, dimension pointer and data pointer, and the source
holds null dim and data pointers and is safely destroyable (a delete on it
frees no live buffer); the source's rank field keeps its old value — it is
not reset to 0. -/
theorem c6_move_tensor_data {α : Type} (src dst : CTensor α) :
    (MoveTensorData src dst).2.ndim = src.ndim ∧
    (MoveTensorData src dst).2.dim = src.dim ∧
    (MoveTensorData src dst).2.data = src.data ∧
    (MoveTensorData src dst).1.dim = none ∧
    (MoveTensorData src dst).1.data = none ∧
    (MoveTensorData src dst).1.ndim = src.ndim ∧
    DeleteTensorLiveFrees (MoveTensorData src dst).1 = 0 := by
  refine ⟨rfl, rfl, rfl, rfl, rfl, rfl, ?_⟩
  simp [MoveTensorData, DeleteTensorLiveFrees]

/-- C7: for a rank-0 tensor the transpose loop reads `perm[0]` from the empty
permutation and `t->dim[0]` from the NULL dim pointer; the checked embedding
therefore yields `none` instead of the scalar copy the claim asserts.  The
failing accesses are at tensor.c:255 and tensor.c:263/273. -/
theorem c7_transpose_rank0_unsafe :
    TransposeTensor ([] : List ℕ) (⟨[], [(7 : ℤ)]⟩ : Tensor ℤ) = none ∧
    ¬ ∃ r : Tensor ℤ, TransposeTensor ([] : List ℕ) (⟨[], [(7 : ℤ)]⟩ : Tensor ℤ) = some r ∧
      r.data = [(7 : ℤ)] := by
  refine ⟨rfl, ?_⟩
  rintro ⟨r, hr, _⟩
  rw [show TransposeTensor ([] : List ℕ) (⟨[], [(7 : ℤ)]⟩ : Tensor ℤ) = none from rfl] at hr
  cases hr

/-- C8: at the `cblas_zaxpy` call site (tensor.c:404) the element count is
lowered through a bare `(int)` cast with no size check: for a tensor of
2³¹ elements the shape asserts pass, no abort happens, and the kernel
receives the truncated count −2³¹ instead of the true element count. -/
theorem c8_unguarded_int_cast :
    ScalarMultiplyAddKernelN (⟨[2 ^ 31], []⟩ : Tensor ℤ) = -(2 ^ 31) ∧
    ScalarMultiplyAddKernelN (⟨[2 ^ 31], []⟩ : Tensor ℤ) ≠
      (NumTensorElements (⟨[2 ^ 31], []⟩ : Tensor ℤ) : ℤ) ∧
    ScalarMultiplyAddTensor (1 : ℤ) ⟨[2 ^ 31], []⟩ ⟨[2 ^ 31], []⟩ =
      some ⟨[2 ^ 31], []⟩ := by
  refine ⟨by decide, by decide, ?_⟩
  rw [ScalarMultiplyAddTensor, if_pos ⟨rfl, rfl⟩]
  rfl

/-- C1 counterexample: without a size bound the claim is false.  For
`S = T` of shape (2³¹) with data `1, 0, …, 0` and `m = 1`, the shape guards
all pass, but the count handed to `cblas_zdotu_sub` is `(int)(2³¹) = −2³¹`
(tensor.c:472), so the kernel sums nothing and the result element is 0,
while the matrix-product formula of the claim gives 1. -/
theorem c1_size_wrap_counterexample :
    MultiplyTensor (⟨[2 ^ 31], (1 : ℤ) :: List.replicate (2 ^ 31 - 1) 0⟩ : Tensor ℤ)
        ⟨[2 ^ 31], (1 : ℤ) :: List.replicate (2 ^ 31 - 1) 0⟩ 1 = some ⟨[], [0]⟩ ∧
    (∑ b in Finset.range ((([2 ^ 31] : List ℕ).take 1).prod),
        ((1 : ℤ) :: List.replicate (2 ^ 31 - 1) 0).getD b 0 *
        ((1 : ℤ) :: List.replicate (2 ^ 31 - 1) 0).getD b 0) = 1 ∧
    ¬ ∃ r : Tensor ℤ,
        MultiplyTensor (⟨[2 ^ 31], (1 : ℤ) :: List.replicate (2 ^ 31 - 1) 0⟩ : Tensor ℤ)
          ⟨[2 ^ 31], (1 : ℤ) :: List.replicate (2 ^ 31 - 1) 0⟩ 1 = some r ∧
        (∀ i j, i < (([2 ^ 31] : List ℕ).take 0).prod →
          j < (([2 ^ 31] : List ℕ).drop 1).prod →
          r.data.getD (i + (([2 ^ 31] : List ℕ).take 0).prod * j) 0 =
            ∑ b in Finset.range ((([2 ^ 31] : List ℕ).take 1).prod),
              ((1 : ℤ) :: List.replicate (2 ^ 31 - 1) 0).getD
                (i + (([2 ^ 31] : List ℕ).take 0).prod * b) 0 *
              ((1 : ℤ) :: List.replicate (2 ^ 31 - 1) 0).getD
                (b + (([2 ^ 31] : List ℕ).take 1).prod * j) 0) := by
  have heval : MultiplyTensor
      (⟨[2 ^ 31], (1 : ℤ) :: List.replicate (2 ^ 31 - 1) 0⟩ : Tensor ℤ)
      ⟨[2 ^ 31], (1 : ℤ) :: List.replicate (2 ^ 31 - 1) 0⟩ 1 = some ⟨[], [0]⟩ := by
    decide
  have hsum : (∑ b in Finset.range ((([2 ^ 31] : List ℕ).take 1).prod),
      ((1 : ℤ) :: List.replicate (2 ^ 31 - 1) 0).getD b 0 *
      ((1 : ℤ) :: List.replicate (2 ^ 31 - 1) 0).getD b 0) = 1 := by
    refine Eq.trans (Finset.sum_eq_single 0 ?_ ?_) ?_
    · intro b _ hb
      obtain ⟨c, rfl⟩ := Nat.exists_eq_succ_of_ne_zero hb
      rw [List.getD_cons_succ, getD_replicate_self]
      ring
    · intro h0
      exact absurd (Finset.mem_range.mpr (by decide)) h0
    · rfl
  refine ⟨heval, hsum, ?_⟩
  rintro ⟨r, hr, hf⟩
  rw [heval] at hr
  obtain rfl : (⟨[], [0]⟩ : Tensor ℤ) = r := Option.some.inj hr
  have h00 := hf 0 0 (by decide) (by decide)
  simp only [List.take_zero, List.prod_nil, one_mul, mul_zero, add_zero, zero_add,
    List.getD_cons_zero] at h00
  rw [hsum] at h00
  exact absurd h00 (by decide)

/-- C1 (amended): for tensors `S` (rank p) and `T` (rank q) with fewer than
2³¹ elements each and `1 ≤ m ≤ min(p,q)` with matching contracted extents,
`MultiplyTensor` yields a tensor of rank `p + q − 2m` whose dims are the kept
leading dims of `S` followed by the kept trailing dims of `T`, and whose
entries form the column-major matrix product of `S` viewed as `(LDS, K)` with
`T` viewed as `(K, TDT)`: `R[a + LDS·c] = Σ_b S[a + LDS·b] · T[b + K·c]`.
The size restriction is needed because every count reaches the kernels
through the unguarded `(int)` casts of tensor.c:472/479/489/496. -/
theorem c1_multiply_tensor_contract {α : Type} [CommRing α] (s t : Tensor α) (m : ℕ)
    (hm : 1 ≤ m) (hp : m ≤ s.dim.length) (hq : m ≤ t.dim.length)
    (hmatch : ∀ i < m, s.dim.getD (s.dim.length - m + i) 0 = t.dim.getD i 0)
    (hspos : ∀ x ∈ s.dim, 0 < x) (htpos : ∀ x ∈ t.dim, 0 < x)
    (hs32 : NumTensorElements s < 2 ^ 31) (ht32 : NumTensorElements t < 2 ^ 31) :
    ∃ r : Tensor α,
      MultiplyTensor s t m = some r ∧
      r.dim = s.dim.take (s.dim.length - m) ++ t.dim.drop m ∧
      r.dim.length = s.dim.length + t.dim.length - 2 * m ∧
      r.data.length = (s.dim.take (s.dim.length - m)).prod * (t.dim.drop m).prod ∧
      (∀ i j, i < (s.dim.take (s.dim.length - m)).prod → j < (t.dim.drop m).prod →
        r.data.getD (i + (s.dim.take (s.dim.length - m)).prod * j) 0 =
          ∑ b in Finset.range ((t.dim.take m).prod),
            s.data.getD (i + (s.dim.take (s.dim.length - m)).prod * b) 0 *
            t.data.getD (b + (t.dim.take m).prod * j) 0) := by
  obtain ⟨r, h1, h2, h3, h4, h5⟩ :=
    multiplyTensor_spec s t m hm hp hq hmatch hspos htpos hs32 ht32
  exact ⟨r, h1, h2, by omega, h4, h5⟩

/-- C1 witness: the spec's matrix-multiply example, `S = [[1,2],[3,4]]` and
`T = [[5,6],[7,8]]` in column-major layout with `m = 1`. -/
theorem c1_multiply_tensor_contract_witness :
    ∃ r : Tensor ℤ,
      MultiplyTensor (⟨[2, 2], [1, 3, 2, 4]⟩ : Tensor ℤ) ⟨[2, 2], [5, 7, 6, 8]⟩ 1 = some r ∧
      r.dim = ([2, 2] : List ℕ).take (([2, 2] : List ℕ).length - 1) ++
        ([2, 2] : List ℕ).drop 1 ∧
      r.dim.length = ([2, 2] : List ℕ).length + ([2, 2] : List ℕ).length - 2 * 1 ∧
      r.data.length = (([2, 2] : List ℕ).take (([2, 2] : List ℕ).length - 1)).prod *
        (([2, 2] : List ℕ).drop 1).prod ∧
      (∀ i j, i < (([2, 2] : List ℕ).take (([2, 2] : List ℕ).length - 1)).prod →
        j < (([2, 2] : List ℕ).drop 1).prod →
        r.data.getD (i + (([2, 2] : List ℕ).take (([2, 2] : List ℕ).length - 1)).prod * j) 0 =
          ∑ b in Finset.range ((([2, 2] : List ℕ).take 1).prod),
            ([1, 3, 2, 4] : List ℤ).getD
              (i + (([2, 2] : List ℕ).take (([2, 2] : List ℕ).length - 1)).prod * b) 0 *
            ([5, 7, 6, 8] : List ℤ).getD (b + (([2, 2] : List ℕ).take 1).prod * j) 0) :=
  c1_multiply_tensor_contract (⟨[2, 2], [1, 3, 2, 4]⟩ : Tensor ℤ) ⟨[2, 2], [5, 7, 6, 8]⟩ 1
    (by decide) (by decide) (by decide) (by decide) (by decide) (by decide) (by decide)
    (by decide)

/-- C2 counterexample: for shape (2,3) with column-major data [1,2,3,4,5,6]
and perm (1,0) the code produces data [1,3,5,2,4,6]; the claim's stated
result [1,4,2,5,3,6] (a row-major reading of the input) is wrong. -/
theorem c2_transpose_example_counterexample :
    TransposeTensor [1, 0] (⟨[2, 3], [1, 2, 3, 4, 5, 6]⟩ : Tensor ℤ) =
      some ⟨[3, 2], [1, 3, 5, 2, 4, 6]⟩ ∧
    ¬ TransposeTensor [1, 0] (⟨[2, 3], [1, 2, 3, 4, 5, 6]⟩ : Tensor ℤ) =
      some ⟨[3, 2], [1, 4, 2, 5, 3, 6]⟩ := by
  constructor
  · decide
  · decide

/-- C2 (amended): for every tensor of rank n ≥ 1 and permutation perm of
{0,…,n−1}, `TransposeTensor` produces a fresh tensor with `R.rank = T.rank`,
`R.dim[perm[k]] = T.dim[k]`, and `R[perm·i] = T[i]` where
`(perm·i)[perm[k]] = i[k]`; in particular the shape-(2,3) example with
perm (1,0) yields shape (3,2) and data [1,3,5,2,4,6]. -/
theorem c2_transpose_tensor_correct {α : Type} [CommRing α] (t : Tensor α) (perm : List ℕ)
    (hperm : IsPermOf perm t.dim.length) (hrank : 1 ≤ t.dim.length)
    (hpos : ∀ x ∈ t.dim, 0 < x) :
    (∃ r : Tensor α,
      TransposeTensor perm t = some r ∧
      r.dim.length = t.dim.length ∧
      (∀ k < t.dim.length, r.dim.getD (perm.getD k 0) 0 = t.dim.getD k 0) ∧
      (∀ i, ValidIndex t.dim i →
        r.data.getD (IndexToOffset r.dim
          (PermScatter perm i (List.replicate t.dim.length 0))) 0 =
          t.data.getD (IndexToOffset t.dim i) 0)) ∧
    TransposeTensor [1, 0] (⟨[2, 3], [1, 2, 3, 4, 5, 6]⟩ : Tensor ℤ) =
      some ⟨[3, 2], [1, 3, 5, 2, 4, 6]⟩ := by
  constructor
  · obtain ⟨r, h1, h2, h3, h4, h5, h6⟩ := transposeTensor_spec perm t hperm hrank hpos
    refine ⟨r, h1, h3, h4, ?_⟩
    intro i hi
    have hval := h6 i hi
    rw [PosR] at hval
    rw [h2]
    exact hval
  · decide

/-- C2 witness: the amended theorem instantiated at the concrete example. -/
theorem c2_transpose_tensor_correct_witness :
    ∃ r : Tensor ℤ,
      TransposeTensor [1, 0] (⟨[2, 3], [1, 2, 3, 4, 5, 6]⟩ : Tensor ℤ) = some r ∧
      r.dim.length = ([2, 3] : List ℕ).length ∧
      (∀ k < ([2, 3] : List ℕ).length,
        r.dim.getD (([1, 0] : List ℕ).getD k 0) 0 = ([2, 3] : List ℕ).getD k 0) ∧
      (∀ i, ValidIndex [2, 3] i →
        r.data.getD (IndexToOffset r.dim
          (PermScatter [1, 0] i (List.replicate ([2, 3] : List ℕ).length 0))) 0 =
          ([1, 2, 3, 4, 5, 6] : List ℤ).getD (IndexToOffset [2, 3] i) 0) :=
  (c2_transpose_tensor_correct (⟨[2, 3], [1, 2, 3, 4, 5, 6]⟩ : Tensor ℤ) [1, 0]
    (by decide) (by decide) (by decide)).1

/-- C5: for a tensor of rank r ≥ 1 with all extents n, `IdentityTensor`
writes 1 at every diagonal multi-index (j,…,j), equivalently at every flat
offset j·s with s = Σₖ nᵏ, and 0 everywhere else; `TensorTrace` of the
result returns n. -/
theorem c5_identity_trace {α : Type} [CommRing α] (t : Tensor α) {r n : ℕ}
    (hdim : t.dim = List.replicate r n) (hr : 1 ≤ r) :
    ∃ t' : Tensor α,
      IdentityTensor t = some t' ∧
      (∀ j < n, t'.data.getD (j * ∑ k in Finset.range r, n ^ k) 0 = 1) ∧
      (∀ j < n, t'.data.getD (IndexToOffset t.dim (List.replicate r j)) 0 = 1) ∧
      (∀ i, ValidIndex t.dim i → (∀ j < n, i ≠ List.replicate r j) →
        t'.data.getD (IndexToOffset t.dim i) 0 = 0) ∧
      TensorTrace t' = some ((n : α)) := by
  obtain ⟨t', h1, _, _, h4, h5, h6, h7⟩ := identityTensor_spec t hdim hr
  exact ⟨t', h1, h4, h5, h6, h7⟩

/-- C5 witness: the spec's example, n = 3 and rank 4: only the entries at
(j,j,j,j) are 1, everything else is 0, and the trace is 3. -/
theorem c5_identity_trace_witness :
    ∃ t' : Tensor ℤ,
      IdentityTensor (⟨List.replicate 4 3, []⟩ : Tensor ℤ) = some t' ∧
      (∀ j < 3, t'.data.getD (j * ∑ k in Finset.range 4, 3 ^ k) 0 = 1) ∧
      (∀ j < 3, t'.data.getD
        (IndexToOffset (List.replicate 4 3) (List.replicate 4 j)) 0 = 1) ∧
      (∀ i, ValidIndex (List.replicate 4 3) i → (∀ j < 3, i ≠ List.replicate 4 j) →
        t'.data.getD (IndexToOffset (List.replicate 4 3) i) 0 = 0) ∧
      TensorTrace t' = some (((3 : ℕ) : ℤ)) :=
  c5_identity_trace (⟨List.replicate 4 3, []⟩ : Tensor ℤ) rfl (by decide)

/-- C3 counterexample: for two rank-0 tensors the Kronecker product calls
`TransposeTensor` on a rank-0 intermediate, which reads the empty permutation
and the NULL dim pointer; the checked embedding returns `none`, so no result
tensor is produced, contradicting the claim's "for all tensors of equal
rank n". -/
theorem c3_kronecker_rank0_counterexample :
    TensorKroneckerProduct (⟨[], [(1 : ℤ)]⟩ : Tensor ℤ) ⟨[], [(1 : ℤ)]⟩ = none ∧
    ¬ ∃ r : Tensor ℤ,
      TensorKroneckerProduct (⟨[], [(1 : ℤ)]⟩ : Tensor ℤ) ⟨[], [(1 : ℤ)]⟩ = some r := by
  have h : TensorKroneckerProduct (⟨[], [(1 : ℤ)]⟩ : Tensor ℤ) ⟨[], [(1 : ℤ)]⟩ = none := by
    decide
  refine ⟨h, ?_⟩
  rintro ⟨r, hr⟩
  rw [h] at hr
  cases hr

/-- C3 (amended): for tensors S and T of equal rank n ≥ 1 with fewer than 2³¹
elements each, `TensorKroneckerProduct` (outer product, interleaving
transpose, reshape) produces R of rank n with
`R.dim[k] = S.dim[k] · T.dim[k]`, and with the S index varying fastest within
each combined axis: `R[i₀ + S.dim[0]·j₀, …] = S[i] · T[j]`.  The size
restriction is needed because the element counts reach `cblas_zgeru` through
the unguarded `(int)` casts of tensor.c:536. -/
theorem c3_kronecker_product {α : Type} [CommRing α] (s t : Tensor α)
    (hrank : s.dim.length = t.dim.length) (hr1 : 1 ≤ s.dim.length)
    (hspos : ∀ x ∈ s.dim, 0 < x) (htpos : ∀ x ∈ t.dim, 0 < x)
    (hs32 : NumTensorElements s < 2 ^ 31) (ht32 : NumTensorElements t < 2 ^ 31) :
    ∃ r : Tensor α,
      TensorKroneckerProduct s t = some r ∧
      r.dim.length = s.dim.length ∧
      (∀ k < s.dim.length, r.dim.getD k 0 = s.dim.getD k 0 * t.dim.getD k 0) ∧
      (∀ i j, ValidIndex s.dim i → ValidIndex t.dim j →
        r.data.getD (IndexToOffset r.dim (CombineIdx i s.dim j)) 0 =
          s.data.getD (IndexToOffset s.dim i) 0 *
          t.data.getD (IndexToOffset t.dim j) 0) := by
  obtain ⟨r, h1, h2, h3, h4, h5⟩ :=
    tensorKroneckerProduct_spec s t hrank hr1 hspos htpos hs32 ht32
  refine ⟨r, h1, h3, h4, ?_⟩
  intro i j hi hj
  rw [h2]
  exact h5 i j hi hj

/-- C3 witness: rank-1 vectors S = [1,2] and T = [3,4]; the combined axis has
extent 4 with the S index fastest. -/
theorem c3_kronecker_product_witness :
    ∃ r : Tensor ℤ,
      TensorKroneckerProduct (⟨[2], [1, 2]⟩ : Tensor ℤ) ⟨[2], [3, 4]⟩ = some r ∧
      r.dim.length = ([2] : List ℕ).length ∧
      (∀ k < ([2] : List ℕ).length,
        r.dim.getD k 0 = ([2] : List ℕ).getD k 0 * ([2] : List ℕ).getD k 0) ∧
      (∀ i j, ValidIndex [2] i → ValidIndex [2] j →
        r.data.getD (IndexToOffset r.dim (CombineIdx i [2] j)) 0 =
          ([1, 2] : List ℤ).getD (IndexToOffset [2] i) 0 *
          ([3, 4] : List ℤ).getD (IndexToOffset [2] j) 0) :=
  c3_kronecker_product (⟨[2], [1, 2]⟩ : Tensor ℤ) ⟨[2], [3, 4]⟩
    (by decide) (by decide) (by decide) (by decide) (by decide) (by decide)

theorem mem_eq_one_of_prod_eq_one : ∀ {l : List ℕ}, l.prod = 1 → ∀ x ∈ l, x = 1 := by
  intro l
  induction l with
  | nil =>
    intro _ x hx
    simp at hx
  | cons a as ih =>
    intro hprod x hx
    rw [List.prod_cons] at hprod
    obtain ⟨ha, has⟩ := mul_eq_one.mp hprod
    rcases List.mem_cons.mp hx with h | h
    · rw [h, ha]
    · exact ih has x h

theorem drop_eq_take_of_match {sdim tdim : List ℕ} {m : ℕ} (hp : m ≤ sdim.length)
    (hq : m ≤ tdim.length)
    (hmatch : ∀ i < m, sdim.getD (sdim.length - m + i) 0 = tdim.getD i 0) :
    sdim.drop (sdim.length - m) = tdim.take m := by
  refine ext_getD _ _ 0 ?_ ?_
  · rw [List.length_drop, List.length_take]
    omega
  · intro i hi
    rw [List.length_drop] at hi
    have him : i < m := by omega
    rw [getD_drop, getD_take _ 0 him]
    exact hmatch i him

/-- C4 counterexample: with S of shape (1,2) and T of shape (2,1) and m = 1,
both kept-axis products are 1, yet `MultiplyTensor` returns a tensor of rank
2 (shape (1,1)), not rank 0; its single element is the unconjugated sum. -/
theorem c4_rank0_counterexample :
    ((([1, 2] : List ℕ).take (([1, 2] : List ℕ).length - 1)).prod = 1 ∧
      (([2, 1] : List ℕ).drop 1).prod = 1) ∧
    MultiplyTensor (⟨[1, 2], [5, 7]⟩ : Tensor ℤ) ⟨[2, 1], [11, 13]⟩ 1 =
      some ⟨[1, 1], [146]⟩ ∧
    (⟨[1, 1], [146]⟩ : Tensor ℤ).dim.length ≠ 0 := by
  refine ⟨by decide, ?_, by decide⟩
  decide

/-- C4 (amended): under the contraction preconditions and for fewer than 2³¹
elements per operand (the count reaches `cblas_zdotu_sub` through the
unguarded `(int)` cast of tensor.c:472), if both kept-axis products are 1
(`LDS = TDT = 1`), `MultiplyTensor` returns a tensor whose rank is
`p + q − 2m` with every kept extent equal to 1 (rank 0 exactly when
`m = p = q`), and whose single element is the unconjugated bilinear sum
`Σₖ S.data[k] · T.data[k]` (zdotu semantics, no conjugation); e.g.
`S = [1+i, 2]`, `T = [3, 4−i]`, `m = 1` yields the rank-0 scalar `11 + i`. -/
theorem c4_full_contraction_inner_product {α : Type} [CommRing α] (s t : Tensor α)
    (m : ℕ) (hm : 1 ≤ m) (hp : m ≤ s.dim.length) (hq : m ≤ t.dim.length)
    (hmatch : ∀ i < m, s.dim.getD (s.dim.length - m + i) 0 = t.dim.getD i 0)
    (hspos : ∀ x ∈ s.dim, 0 < x) (htpos : ∀ x ∈ t.dim, 0 < x)
    (hs32 : NumTensorElements s < 2 ^ 31) (ht32 : NumTensorElements t < 2 ^ 31)
    (hLDS : (s.dim.take (s.dim.length - m)).prod = 1)
    (hTDT : (t.dim.drop m).prod = 1) :
    (∃ r : Tensor α,
      MultiplyTensor s t m = some r ∧
      r.dim = s.dim.take (s.dim.length - m) ++ t.dim.drop m ∧
      (∀ d ∈ r.dim, d = 1) ∧
      r.dim.length = s.dim.length + t.dim.length - 2 * m ∧
      r.data = [∑ k in Finset.range (NumTensorElements s),
        s.data.getD k 0 * t.data.getD k 0]) ∧
    MultiplyTensor (⟨[2], [⟨1, 1⟩, 2]⟩ : Tensor GaussianInt) ⟨[2], [3, ⟨4, -1⟩]⟩ 1 =
      some ⟨[], [⟨11, 1⟩]⟩ := by
  constructor
  · obtain ⟨r, h1, h2, h3, h4, h5⟩ :=
      multiplyTensor_spec s t m hm hp hq hmatch hspos htpos hs32 ht32
    have hlist := drop_eq_take_of_match hp hq hmatch
    have hKKT : (s.dim.drop (s.dim.length - m)).prod = (t.dim.take m).prod :=
      congrArg List.prod hlist
    have hnsKT : NumTensorElements s = (t.dim.take m).prod := by
      show s.dim.prod = _
      rw [← List.take_append_drop (s.dim.length - m) s.dim, List.prod_append, hLDS,
        Nat.one_mul]
      exact hKKT
    refine ⟨r, h1, h2, ?_, by omega, ?_⟩
    · intro d hd
      rw [h2, List.mem_append] at hd
      rcases hd with h | h
      · exact mem_eq_one_of_prod_eq_one hLDS d h
      · exact mem_eq_one_of_prod_eq_one hTDT d h
    · refine ext_getD _ _ 0 ?_ ?_
      · rw [h4, hLDS, hTDT]
        rfl
      · intro i hi
        rw [h4, hLDS, hTDT, Nat.one_mul] at hi
        have hi0 : i = 0 := by omega
        subst hi0
        have hv := h5 0 0 (by omega) (by omega)
        rw [hLDS] at hv
        simp only [Nat.one_mul, Nat.mul_zero, Nat.add_zero, Nat.zero_add] at hv
        rw [hv, List.getD_cons_zero, hnsKT]
  · decide

/-- C4 witness: the amended theorem instantiated at the spec's unconjugated
inner-product example over the Gaussian integers. -/
theorem c4_full_contraction_inner_product_witness :
    (∃ r : Tensor GaussianInt,
      MultiplyTensor (⟨[2], [⟨1, 1⟩, 2]⟩ : Tensor GaussianInt) ⟨[2], [3, ⟨4, -1⟩]⟩ 1 =
        some r ∧
      r.dim = ([2] : List ℕ).take (([2] : List ℕ).length - 1) ++ ([2] : List ℕ).drop 1 ∧
      (∀ d ∈ r.dim, d = 1) ∧
      r.dim.length = ([2] : List ℕ).length + ([2] : List ℕ).length - 2 * 1 ∧
      r.data = [∑ k in Finset.range
          (NumTensorElements (⟨[2], [⟨1, 1⟩, 2]⟩ : Tensor GaussianInt)),
        ([⟨1, 1⟩, 2] : List GaussianInt).getD k 0 *
        ([3, ⟨4, -1⟩] : List GaussianInt).getD k 0]) ∧
    MultiplyTensor (⟨[2], [⟨1, 1⟩, 2]⟩ : Tensor GaussianInt) ⟨[2], [3, ⟨4, -1⟩]⟩ 1 =
      some ⟨[], [⟨11, 1⟩]⟩ :=
  c4_full_contraction_inner_product (⟨[2], [⟨1, 1⟩, 2]⟩ : Tensor GaussianInt)
    ⟨[2], [3, ⟨4, -1⟩]⟩ 1 (by decide) (by decide) (by decide) (by decide) (by decide)
    (by decide) (by decide) (by decide) (by decide) (by decide)

/-- C9 counterexample: for a rank-0 tensor and the empty permutation (its own
inverse) the first transpose already fails on the empty-permutation /
NULL-dim reads, so the round trip does not return the original tensor. -/
theorem c9_roundtrip_rank0_counterexample :
    ¬ (TransposeTensor ([] : List ℕ) (⟨[], [(5 : ℤ)]⟩ : Tensor ℤ)).bind
      (TransposeTensor ([] : List ℕ)) = some ⟨[], [(5 : ℤ)]⟩ := by
  decide

/-- C9 (amended): for every tensor of rank ≥ 1 with well-formed data and
every permutation with inverse `pinv` (`pinv[perm[k]] = k`), transposing by
`perm` and then by `pinv` returns a tensor equal to the original in rank,
dimensions and all elements. -/
theorem c9_transpose_roundtrip {α : Type} [CommRing α] (t : Tensor α)
    (perm pinv : List ℕ) (hrank : 1 ≤ t.dim.length) (hpos : ∀ x ∈ t.dim, 0 < x)
    (hwf : t.data.length = NumTensorElements t)
    (hperm : IsPermOf perm t.dim.length) (hpinv : IsPermOf pinv t.dim.length)
    (hinv : ∀ k < t.dim.length, pinv.getD (perm.getD k 0) 0 = k) :
    (TransposeTensor perm t).bind (TransposeTensor pinv) = some t := by
  obtain ⟨r1, he1, hd1, hl1, _, hlen1, helem1⟩ :=
    transposeTensor_spec perm t hperm hrank hpos
  rw [he1, Option.some_bind]
  have hperm2 : IsPermOf pinv r1.dim.length := by rwa [hl1]
  have hrank2 : 1 ≤ r1.dim.length := by omega
  have hpos2 : ∀ x ∈ r1.dim, 0 < x := by
    rw [hd1]
    exact transShape_pos hperm hpos
  obtain ⟨r2, he2, hd2, hl2, _, hlen2, helem2⟩ :=
    transposeTensor_spec pinv r1 hperm2 hrank2 hpos2
  rw [he2]
  -- the resulting dimension vector is the original one
  have hshape2 : TransShape pinv r1.dim = t.dim := by
    unfold TransShape
    rw [hl1, hd1]
    unfold TransShape
    exact permScatter_inverse hperm hpinv hinv t.dim rfl
  have hdim2 : r2.dim = t.dim := by rw [hd2, hshape2]
  -- data agrees pointwise, hence as lists
  have hdata2 : r2.data = t.data := by
    refine ext_getD _ _ 0 ?_ ?_
    · rw [hlen2, hshape2, hwf]
      rfl
    · intro pos hpos'
      rw [hlen2, hshape2] at hpos'
      have hposlt : pos < t.dim.prod := hpos'
      have hvi : ValidIndex t.dim (offsetToIndex t.dim pos) :=
        offsetToIndex_valid t.dim pos hposlt
      have hio : IndexToOffset t.dim (offsetToIndex t.dim pos) = pos :=
        indexToOffset_offsetToIndex t.dim pos hposlt
      set i := offsetToIndex t.dim pos with hidef
      have hvi' : ValidIndex r1.dim (PermScatter perm i (List.replicate t.dim.length 0)) := by
        rw [hd1]
        exact transShape_valid hperm hvi
      have hstep2 := helem2 (PermScatter perm i (List.replicate t.dim.length 0)) hvi'
      have hstep1 := helem1 i hvi
      -- rewrite the position used by the second transpose
      have hposR2 : PosR pinv r1.dim (PermScatter perm i (List.replicate t.dim.length 0)) =
          pos := by
        unfold PosR
        rw [hshape2, hl1]
        have hil : i.length = t.dim.length := validIndex_length hvi
        rw [permScatter_inverse hperm hpinv hinv i hil, hio]
      have hposR1 : IndexToOffset r1.dim
          (PermScatter perm i (List.replicate t.dim.length 0)) = PosR perm t.dim i := by
        unfold PosR
        rw [hd1]
      rw [hposR2, hposR1] at hstep2
      rw [hstep2, hstep1, hio]
  obtain ⟨r2dim, r2data⟩ := r2
  obtain ⟨tdim, tdata⟩ := t
  simp only at hdim2 hdata2
  rw [hdim2, hdata2]

/-- C9 witness: the amended theorem at the shape-(2,3) tensor with the swap
permutation (1,0), which is its own inverse. -/
theorem c9_transpose_roundtrip_witness :
    (TransposeTensor [1, 0] (⟨[2, 3], [1, 2, 3, 4, 5, 6]⟩ : Tensor ℤ)).bind
      (TransposeTensor [1, 0]) = some ⟨[2, 3], [1, 2, 3, 4, 5, 6]⟩ :=
  c9_transpose_roundtrip (⟨[2, 3], [1, 2, 3, 4, 5, 6]⟩ : Tensor ℤ) [1, 0] [1, 0]
    (by decide) (by decide) (by decide) (by decide) (by decide) (by decide)

/-- C6 witness: the amended move contract at a concrete rank-2 source. -/
theorem c6_move_tensor_data_witness :
    (MoveTensorData (⟨2, some [2, 3], some [(9 : ℤ)]⟩ : CTensor ℤ) ⟨0, none, none⟩).2.ndim = 2 ∧
    (MoveTensorData (⟨2, some [2, 3], some [(9 : ℤ)]⟩ : CTensor ℤ) ⟨0, none, none⟩).2.dim =
      some [2, 3] ∧
    (MoveTensorData (⟨2, some [2, 3], some [(9 : ℤ)]⟩ : CTensor ℤ) ⟨0, none, none⟩).2.data =
      some [(9 : ℤ)] ∧
    (MoveTensorData (⟨2, some [2, 3], some [(9 : ℤ)]⟩ : CTensor ℤ) ⟨0, none, none⟩).1.dim =
      none ∧
    (MoveTensorData (⟨2, some [2, 3], some [(9 : ℤ)]⟩ : CTensor ℤ) ⟨0, none, none⟩).1.data =
      none ∧
    (MoveTensorData (⟨2, some [2, 3], some [(9 : ℤ)]⟩ : CTensor ℤ) ⟨0, none, none⟩).1.ndim = 2 ∧
    DeleteTensorLiveFrees
      (MoveTensorData (⟨2, some [2, 3], some [(9 : ℤ)]⟩ : CTensor ℤ) ⟨0, none, none⟩).1 = 0 :=
  c6_move_tensor_data (⟨2, some [2, 3], some [(9 : ℤ)]⟩ : CTensor ℤ) ⟨0, none, none⟩

/-- C10 witness: double delete at a concrete live tensor state. -/
theorem c10_delete_tensor_idempotent_witness :
    (DeleteTensor (⟨1, some [2], some [(4 : ℤ)]⟩ : CTensor ℤ)).ndim = 0 ∧
    (DeleteTensor (⟨1, some [2], some [(4 : ℤ)]⟩ : CTensor ℤ)).data = none ∧
    DeleteTensor (DeleteTensor (⟨1, some [2], some [(4 : ℤ)]⟩ : CTensor ℤ)) =
      DeleteTensor (⟨1, some [2], some [(4 : ℤ)]⟩ : CTensor ℤ) ∧
    DeleteTensorLiveFrees (DeleteTensor (⟨1, some [2], some [(4 : ℤ)]⟩ : CTensor ℤ)) = 0 ∧
    DeleteTensorLiveFrees
      (MoveTensorData (⟨1, some [2], some [(4 : ℤ)]⟩ : CTensor ℤ) ⟨0, none, none⟩).1 = 0 :=
  c10_delete_tensor_idempotent (⟨1, some [2], some [(4 : ℤ)]⟩ : CTensor ℤ)
    (⟨1, some [2], some [(4 : ℤ)]⟩ : CTensor ℤ) ⟨0, none, none⟩
